import Mathlib

/-!
Verification of the Regularity Diff Engine of the `conjugateur-fr` repository
(`docs/app.js`).  Strings are modelled as `List Char`; every definition below
is a direct shallow embedding of the corresponding JavaScript function, with
the source line numbers noted in the doc comments.
-/

set_option maxHeartbeats 1000000
set_option linter.unreachableTactic false
set_option linter.unusedTactic false

/-- Models `String.prototype.toLowerCase` over the Latin-1 / French alphabet the
application handles: ASCII letters, the Latin-1 accented capitals (À..Þ except ×),
and Œ/Ÿ.  All other characters are left unchanged. -/
def jsToLower (c : Char) : Char :=
  if 'A' ≤ c ∧ c ≤ 'Z' then Char.ofNat (c.toNat + 32)
  else if 0xC0 ≤ c.toNat ∧ c.toNat ≤ 0xDE ∧ c.toNat ≠ 0xD7 then Char.ofNat (c.toNat + 32)
  else if c = 'Œ' then 'œ'
  else if c = 'Ÿ' then 'ÿ'
  else c

/-- Models `String.prototype.endsWith` (case-sensitive suffix test). -/
def endsWith (s suf : List Char) : Bool :=
  decide (suf.length ≤ s.length) && decide (s.drop (s.length - suf.length) = suf)

/-- Models `s.slice(0, -k)` on strings: drop the last `k` characters. -/
def sliceNeg (s : List Char) (k : Nat) : List Char :=
  s.take (s.length - k)

/-- Verb group, from `verbGroup` (app.js 32-37). -/
inductive VGroup
  | er
  | ir
  | re
  | other
deriving DecidableEq, Repr

/-- Embeds `verbGroup` (app.js 32-37). -/
def verbGroup (inf : List Char) : VGroup :=
  if endsWith inf ['e', 'r'] then VGroup.er
  else if endsWith inf ['i', 'r'] then VGroup.ir
  else if endsWith inf ['r', 'e'] then VGroup.re
  else VGroup.other

/-- Embeds `linguisticStem` (app.js 39-44): the infinitive minus its
two-character ending when it ends in `er`/`ir`/`re`, otherwise unchanged. -/
def linguisticStem (inf : List Char) : List Char :=
  if endsWith inf ['e', 'r'] then sliceNeg inf 2
  else if endsWith inf ['i', 'r'] then sliceNeg inf 2
  else if endsWith inf ['r', 'e'] then sliceNeg inf 2
  else inf

/-- The four tenses handled by the rule tables (app.js 221-236). -/
inductive Tense
  | present
  | imparfait
  | passe_simple
  | futur
deriving DecidableEq, Repr

/-- Selects one of six strings by person index, modelling the JavaScript
six-element array literals indexed by `personIndex`. -/
def six (a b c d e' f : String) : Fin 6 → List Char := fun p =>
  match p.val with
  | 0 => a.toList
  | 1 => b.toList
  | 2 => c.toList
  | 3 => d.toList
  | 4 => e'.toList
  | _ => f.toList

/-- Embeds `regularEnding` (app.js 221-236). -/
def regularEnding (inf : List Char) (tk : Tense) (p : Fin 6) : List Char :=
  match tk with
  | Tense.present =>
    match verbGroup inf with
    | VGroup.er => six "e" "es" "e" "ons" "ez" "ent" p
    | VGroup.ir => six "is" "is" "it" "issons" "issez" "issent" p
    | VGroup.re => six "s" "s" "" "ons" "ez" "ent" p
    | VGroup.other => []
  | Tense.imparfait => six "ais" "ais" "ait" "ions" "iez" "aient" p
  | Tense.futur => six "ai" "as" "a" "ons" "ez" "ont" p
  | Tense.passe_simple =>
    match verbGroup inf with
    | VGroup.er => six "ai" "as" "a" "âmes" "âtes" "èrent" p
    | VGroup.ir => six "is" "is" "it" "îmes" "îtes" "irent" p
    | VGroup.re => six "is" "is" "it" "îmes" "îtes" "irent" p
    | VGroup.other => []

/-- Embeds `expectedBaseForm` (app.js 238-263).  The `stems` argument models
the optional `stems.imparfaitStem` field; `none` or an empty string is falsy
in the JavaScript condition `stems && stems.imparfaitStem`. -/
def expectedBaseForm (inf : List Char) (tk : Tense) (p : Fin 6)
    (stems : Option (List Char)) : List Char :=
  let group := verbGroup inf
  let stem := if group = VGroup.other then inf else sliceNeg inf 2
  match tk with
  | Tense.present => stem ++ regularEnding inf tk p
  | Tense.imparfait =>
    let ending := regularEnding inf tk p
    let fallback := if group = VGroup.ir then stem ++ "iss".toList else stem
    let base := match stems with
      | some s => if s = [] then fallback else s
      | none => fallback
    base ++ ending
  | Tense.futur =>
    let base := if group = VGroup.re then sliceNeg inf 1 else inf
    base ++ regularEnding inf tk p
  | Tense.passe_simple => stem ++ regularEnding inf tk p

/-- Whether a character is one of `a`, `â`, `o` (the lookahead class of the
`cer`/`ger` spelling rules, app.js 151-156). -/
def isAAO (c : Char) : Bool :=
  c = 'a' || c = 'â' || c = 'o'

/-- Whether a list starts with an `a`/`â`/`o` character. -/
def headIsAAO : List Char → Bool
  | [] => false
  | d :: _ => isAAO d

/-- Embeds `form.replace(/c(?=[aâo])/g, "ç")` (app.js 152). -/
def replaceCCedilla : List Char → List Char
  | [] => []
  | c :: rest =>
    if c = 'c' && headIsAAO rest then 'ç' :: replaceCCedilla rest
    else c :: replaceCCedilla rest

/-- Embeds `form.replace(/g(?=[aâo])/g, "ge")` (app.js 155). -/
def replaceGGe : List Char → List Char
  | [] => []
  | c :: rest =>
    if c = 'g' && headIsAAO rest then 'g' :: 'e' :: replaceGGe rest
    else c :: replaceGGe rest

/-- First-occurrence duplicate removal, modelling `[...new Set(variants)]`
(JavaScript `Set` preserves insertion order). -/
def jsSetDedupGo (seen : List (List Char)) : List (List Char) → List (List Char)
  | [] => []
  | x :: rest =>
    if x ∈ seen then jsSetDedupGo seen rest
    else x :: jsSetDedupGo (x :: seen) rest

/-- `[...new Set(l)]`. -/
def jsSetDedup (l : List (List Char)) : List (List Char) :=
  jsSetDedupGo [] l

/-- Embeds `cerGerVariants` (app.js 147-158). -/
def cerGerVariants (form inf ending : List Char) : List (List Char) :=
  let lower := inf.map jsToLower
  let v1 := [form]
  let v2 := if endsWith lower "cer".toList && headIsAAO ending
    then v1 ++ [replaceCCedilla form] else v1
  let v3 := if endsWith lower "ger".toList && headIsAAO ending
    then v2 ++ [replaceGGe form] else v2
  jsSetDedup v3

/-- Index of the last occurrence of a character, modelling
`String.prototype.lastIndexOf` (with `none` for `-1`). -/
def lastIdxOf : List Char → Char → Option Nat
  | [], _ => none
  | d :: rest, c =>
    match lastIdxOf rest c with
    | some i => some (i + 1)
    | none => if d = c then some 0 else none

/-- Embeds `yToIVariants` (app.js 160-166). -/
def yToIVariants (stem : List Char) (optional : Bool) : List (List Char) :=
  if ¬ stem.contains 'y' then [stem]
  else
    match lastIdxOf stem 'y' with
    | none => [stem]
    | some idx =>
      let changed := stem.take idx ++ 'i' :: stem.drop (idx + 1)
      if optional then [stem, changed] else [changed]

/-- The silent-e person set `{0, 1, 2, 5}` (app.js 170 etc.). -/
def silentE (p : Fin 6) : Bool :=
  p.val = 0 || p.val = 1 || p.val = 2 || p.val = 5

/-- Embeds `yerStemVariants` (app.js 168-176). -/
def yerStemVariants (stem inf : List Char) (tk : Tense) (p : Fin 6) : List (List Char) :=
  if tk ≠ Tense.present then [stem]
  else if ¬ silentE p then [stem]
  else
    let lower := inf.map jsToLower
    if endsWith lower "oyer".toList || endsWith lower "uyer".toList then
      yToIVariants stem false
    else if endsWith lower "ayer".toList then yToIVariants stem true
    else [stem]

/-- Embeds `eToEGrave` (app.js 178-182): grave-accent the last plain `e`. -/
def eToEGrave (stem : List Char) : List Char :=
  match lastIdxOf stem 'e' with
  | none => stem
  | some idx => stem.take idx ++ 'è' :: stem.drop (idx + 1)

/-- Embeds `eAcuteToEGrave` (app.js 184-188): grave-accent the last `é`. -/
def eAcuteToEGrave (stem : List Char) : List Char :=
  match lastIdxOf stem 'é' with
  | none => stem
  | some idx => stem.take idx ++ 'è' :: stem.drop (idx + 1)

/-- Complement of the vowel class `[aeiouy]` used by the `eer` regexes. -/
def nonVowelAeiouy (c : Char) : Bool :=
  ¬ (c = 'a' || c = 'e' || c = 'i' || c = 'o' || c = 'u' || c = 'y')

/-- Whether some occurrence of `x` is followed only by non-`aeiouy` characters
up to the end of the list (the `X[^aeiouy]*` part of the regexes). -/
def hasXThenCons (x : Char) : List Char → Bool
  | [] => false
  | c :: rest => (c = x && rest.all nonVowelAeiouy) || hasXThenCons x rest

/-- Embeds the regex test `/X[^aeiouy]*er$/.test(s)` (app.js 197-198): an
occurrence of `x` followed only by non-vowels and then a final `er`. -/
def matchesXConsEr (x : Char) (s : List Char) : Bool :=
  endsWith s ['e', 'r'] && hasXThenCons x (s.take (s.length - 2))

/-- Embeds `eerStemVariants` (app.js 190-200). -/
def eerStemVariants (stem inf : List Char) (tk : Tense) (p : Fin 6) : List (List Char) :=
  if tk ≠ Tense.present then [stem]
  else if ¬ silentE p then [stem]
  else
    let lower := inf.map jsToLower
    let vs :=
      if matchesXConsEr 'é' lower then [stem, eAcuteToEGrave stem]
      else if matchesXConsEr 'e' lower then [stem, eToEGrave stem]
      else [stem]
    jsSetDedup vs

/-- Embeds `elerEterStemVariants` (app.js 202-219). -/
def elerEterStemVariants (stem inf : List Char) (tk : Tense) (p : Fin 6) : List (List Char) :=
  if tk ≠ Tense.present then [stem]
  else if ¬ silentE p then [stem]
  else
    let lower := inf.map jsToLower
    if ¬ (endsWith lower "eler".toList || endsWith lower "eter".toList) then [stem]
    else
      let v1 := [stem, eToEGrave stem]
      let v2 :=
        if endsWith lower "eler".toList && endsWith stem "el".toList then
          let doubled := sliceNeg stem 1 ++ "ll".toList
          v1 ++ [doubled, eToEGrave doubled]
        else v1
      let v3 :=
        if endsWith lower "eter".toList && endsWith stem "et".toList then
          let doubled := sliceNeg stem 1 ++ "tt".toList
          v2 ++ [doubled, eToEGrave doubled]
        else v2
      jsSetDedup v3

/-- Embeds `expectedRegularVariants` (app.js 265-289). -/
def expectedRegularVariants (inf : List Char) (tk : Tense) (p : Fin 6)
    (stems : Option (List Char)) : List (List Char) :=
  let group := verbGroup inf
  let base := expectedBaseForm inf tk p stems
  if base = [] then []
  else
    let ending := regularEnding inf tk p
    let variants := ([base].flatMap fun f => cerGerVariants f inf ending)
    let variants :=
      if tk = Tense.present ∧ group ≠ VGroup.other then
        let stem := sliceNeg inf 2
        let e' := regularEnding inf Tense.present p
        variants ++
          ((yerStemVariants stem inf tk p).flatMap fun st1 =>
            (eerStemVariants st1 inf tk p).flatMap fun st2 =>
              (elerEterStemVariants st2 inf tk p).map fun st3 => st3 ++ e')
      else variants
    (jsSetDedup variants).filter (fun v => ¬ v = [])

/-- Edit operations of the aligner's backtrace table (app.js 90-120). -/
inductive EOp
  | eq
  | rep
  | ins
  | del
deriving DecidableEq, Repr

/-- Fuel-indexed form of the cost table of `editMask` (app.js 89-120); the
fuel only drives structural recursion and is irrelevant once at least `i + j`
(`dpF_eq_of_le`).  `dp b a i j` below is `dp[i][j]`, the edit distance between
the first `i` characters of the expected string `b` and the first `j`
characters of the actual string `a`, with the same `if`-chain as the source. -/
def dpF (b a : List Char) : Nat → Nat → Nat → Nat
  | _, 0, j => j
  | _, i + 1, 0 => i + 1
  | 0, _ + 1, _ + 1 => 0
  | fuel + 1, i + 1, j + 1 =>
    let cost : Nat := if b[i]? = a[j]? then 0 else 1
    let rep := dpF b a fuel i j + cost
    let ins := dpF b a fuel (i + 1) j + 1
    let del := dpF b a fuel i (j + 1) + 1
    let best2 := if ins < rep then ins else rep
    if del < best2 then del else best2

/-- The cost table `dp[i][j]` of `editMask` (app.js 89-120). -/
def dp (b a : List Char) (i j : Nat) : Nat :=
  dpF b a (i + j) i j

/-- The backtrace-table entry `bt[i+1][j+1]` of `editMask` (app.js 101-119):
the operation chosen for the interior cell `(i+1, j+1)`, with the source's
tie-breaking (`rep`/`eq` first, then `ins`, then `del`, each replacing the
current best only when strictly cheaper). -/
def cellOp (b a : List Char) (i j : Nat) : EOp :=
  let cost : Nat := if b[i]? = a[j]? then 0 else 1
  let rep := dp b a i j + cost
  let ins := dp b a (i + 1) j + 1
  let del := dp b a i (j + 1) + 1
  let op1 := if cost = 0 then EOp.eq else EOp.rep
  let best2 := if ins < rep then ins else rep
  let op2 := if ins < rep then EOp.ins else op1
  if del < best2 then EOp.del else op2

/-- Fuel-indexed form of the backtrace loop of `editMask` (app.js 122-142);
the fuel is irrelevant once at least `i + j` (`btLoopF_eq_of_le`). -/
def btLoopF (b a : List Char) : Nat → Nat → Nat → List Bool → List Bool
  | _, 0, 0, mask => mask
  | 0, _, _, mask => mask
  | fuel + 1, 0, j + 1, mask => btLoopF b a fuel 0 j (mask.set j true)
  | fuel + 1, i + 1, 0, mask => btLoopF b a fuel i 0 mask
  | fuel + 1, i + 1, j + 1, mask =>
    match cellOp b a i j with
    | EOp.eq => btLoopF b a fuel i j mask
    | EOp.rep => btLoopF b a fuel i j (mask.set j true)
    | EOp.ins => btLoopF b a fuel (i + 1) j (mask.set j true)
    | EOp.del => btLoopF b a fuel i (j + 1) mask

/-- The backtrace loop of `editMask` (app.js 122-142), starting from cell
`(i, j)` with the given mask: boundary cells hold `ins` (row 0) and `del`
(column 0) as initialised in app.js 92-99, interior cells follow `cellOp`. -/
def btLoop (b a : List Char) (i j : Nat) (mask : List Bool) : List Bool :=
  btLoopF b a (i + j) i j mask

/-- One step of the backtraced edit path: `eq j`/`rep j`/`ins j` consume the
attested-side character at index `j`; `del i` consumes only the expected-side
character at index `i`. -/
inductive EStep
  | eq (j : Nat)
  | rep (j : Nat)
  | ins (j : Nat)
  | del (i : Nat)
deriving DecidableEq, Repr

/-- Fuel-indexed form of the reconstructed edit path; the fuel is irrelevant
once at least `i + j` (`btStepsF_eq_of_le`). -/
def btStepsF (b a : List Char) : Nat → Nat → Nat → List EStep
  | _, 0, 0 => []
  | 0, _, _ => []
  | fuel + 1, 0, j + 1 => EStep.ins j :: btStepsF b a fuel 0 j
  | fuel + 1, i + 1, 0 => EStep.del i :: btStepsF b a fuel i 0
  | fuel + 1, i + 1, j + 1 =>
    match cellOp b a i j with
    | EOp.eq => EStep.eq j :: btStepsF b a fuel i j
    | EOp.rep => EStep.rep j :: btStepsF b a fuel i j
    | EOp.ins => EStep.ins j :: btStepsF b a fuel (i + 1) j
    | EOp.del => EStep.del i :: btStepsF b a fuel i (j + 1)

/-- The edit path reconstructed by the backtrace loop of `editMask`
(app.js 122-142), listed in scan order (from the ends of both strings
toward the start). -/
def btSteps (b a : List Char) (i j : Nat) : List EStep :=
  btStepsF b a (i + j) i j

/-- Embeds `editMask` (app.js 84-145): returns `(score, mask)` for the
attested string `actual` against the expected string `expected`. -/
def editMask (actual expected : List Char) : Nat × List Bool :=
  (dp expected actual expected.length actual.length,
   btLoop expected actual expected.length actual.length
     (List.replicate actual.length false))

/-- `score < bestScore` where `bestScore` may be `Infinity` (`none`). -/
def ltScore (k : Nat) : Option Nat → Bool
  | none => true
  | some s => decide (k < s)

/-- The selection loop of `bestExpectedMask` (app.js 293-302). -/
def bestLoop (actual : List Char) :
    List (List Char) → Option Nat → Option (List Bool) → Option (List Bool)
  | [], _, best => best
  | v :: rest, bestScore, best =>
    let r := editMask actual v
    if ltScore r.1 bestScore then
      if r.1 = 0 then some r.2
      else bestLoop actual rest (some r.1) (some r.2)
    else bestLoop actual rest bestScore best

/-- Embeds `bestExpectedMask` (app.js 291-304). -/
def bestExpectedMask (actual : List Char) (variants : List (List Char)) :
    Option (List Bool) :=
  if variants = [] then none else bestLoop actual variants none none

/-- The longest case-insensitive common leading run of two strings, taking its
characters from the first argument (the inner loop of `applyBlackUnionRules`,
app.js 50-54). -/
def ciCommonStart : List Char → List Char → List Char
  | s :: ss, f :: fs =>
    if jsToLower s = jsToLower f then s :: ciCommonStart ss fs else []
  | _, _ => []

/-- The outer loop of `applyBlackUnionRules` (app.js 49-57), with the early
break once the running shared string becomes empty. -/
def abuGo : List Char → List (List Char) → List Char
  | shared, [] => shared
  | shared, form :: more =>
    let tmp := ciCommonStart shared form
    if tmp = [] then [] else abuGo tmp more

/-- Embeds `applyBlackUnionRules` (app.js 46-59). -/
def applyBlackUnionRules : List (List Char) → List Char
  | [] => []
  | f :: rest => abuGo f rest

/-- The shared-prefix step of `buildTenseCell` (app.js 487-491): a cell with
fewer than six forms is rendered empty before any analysis, so no shared
string is computed for it (`none` models that disabled state). -/
def buildTenseCellShared (forms : List (List Char)) : Option (List Char) :=
  if forms.length < 6 then none else some (applyBlackUnionRules forms)

/-- Models `lower.indexOf(ch, start)` (first occurrence at index ≥ `start`,
`none` for `-1`). -/
def jsIndexOfFromAux : List Char → Char → Nat → Option Nat
  | [], _, _ => none
  | d :: rest, c, 0 =>
    if d = c then some 0 else (jsIndexOfFromAux rest c 0).map (· + 1)
  | _ :: rest, c, start + 1 => (jsIndexOfFromAux rest c start).map (· + 1)

/-- The greedy scan of `markStemLetters` (app.js 65-70): each stem character
consumes the first matching character of the lowered form after the
previously consumed index; a missing character breaks the whole loop. -/
def mslLoop (lower : List Char) : List Char → Nat → List Bool → List Bool
  | [], _, isB => isB
  | ch :: rest, start, isB =>
    match jsIndexOfFromAux lower ch start with
    | none => isB
    | some idx => mslLoop lower rest (idx + 1) (isB.set idx true)

/-- Embeds `markStemLetters` (app.js 61-72). -/
def markStemLetters (form stem : List Char) : List Bool :=
  mslLoop (form.map jsToLower) (stem.map jsToLower) 0
    (List.replicate form.length false)

/-- The loop of `mergeSharedPrefix` (app.js 74-82): contiguous case-insensitive
matching of the shared string from index 0, stopping at the first mismatch or
at the end of the form. -/
def mspGo (form : List Char) : List Bool → Nat → List Char → List Bool
  | isB, _, [] => isB
  | isB, i, c :: rest =>
    match form[i]? with
    | some fc =>
      if jsToLower fc = jsToLower c then mspGo form (isB.set i true) (i + 1) rest
      else isB
    | none => isB

/-- Embeds `mergeSharedPrefix` (app.js 74-82). -/
def mergeShared (isB : List Bool) (form shared : List Char) : List Bool :=
  mspGo form isB 0 shared

/-- The three-way character classification of the colorizer. -/
inductive CharClass
  | stem
  | irregular
  | normal
deriving DecidableEq, Repr

/-- Models `Boolean(irregularMask && irregularMask[i])` (app.js 325): a missing
mask or an out-of-range index is falsy. -/
def maskAt (m : Option (List Bool)) (i : Nat) : Bool :=
  match m with
  | none => false
  | some l => l.getD i false

/-- The per-character mode computation of `colorizeForm` (app.js 306-334):
index `i` is `stem` ("black") when marked by `markStemLetters` merged with
`mergeSharedPrefix`, otherwise `irregular` ("hi") when the deviation mask
flags it, otherwise `normal`. -/
def classifyForm (form shared stem : List Char) (irregularMask : Option (List Bool)) :
    List CharClass :=
  let isBlack := mergeShared (markStemLetters form stem) form shared
  (List.range form.length).map fun i =>
    if isBlack.getD i false then CharClass.stem
    else if maskAt irregularMask i then CharClass.irregular
    else CharClass.normal

/-- The attested-side index consumed by a step, if any (`del` steps consume
no attested character). -/
def attIdx : EStep → Option Nat
  | EStep.eq j => some j
  | EStep.rep j => some j
  | EStep.ins j => some j
  | EStep.del _ => none

/-- Whether a step marks its attested-side position in the mask: exactly the
substitution and insertion steps do (app.js 130-136). -/
def marksMask : EStep → Option Nat
  | EStep.rep j => some j
  | EStep.ins j => some j
  | _ => none

/-- Replay of an edit path over a mask: each substitution or insertion step
sets its attested-side position to `true`, other steps leave the mask
unchanged. -/
def applySteps (mask : List Bool) : List EStep → List Bool
  | [] => mask
  | st :: rest =>
    match marksMask st with
    | some j => applySteps (mask.set j true) rest
    | none => applySteps mask rest

/-- The list of form indices marked by the greedy scan of `markStemLetters`
(app.js 65-70), in scan order. -/
def mslIndices (lower : List Char) : List Char → Nat → List Nat
  | [], _ => []
  | ch :: rest, start =>
    match jsIndexOfFromAux lower ch start with
    | none => []
    | some idx => idx :: mslIndices lower rest (idx + 1)

/-! ### Basic facts about the fuel-indexed aligner -/

theorem dpF_zero_left (b a : List Char) (f j : Nat) : dpF b a f 0 j = j := by
  cases f <;> rfl

theorem dpF_succ_zero (b a : List Char) (f i : Nat) : dpF b a f (i + 1) 0 = i + 1 := by
  cases f <;> rfl

theorem dpF_eq_of_le (b a : List Char) (n : Nat) :
    ∀ i j f₁ f₂, i + j = n → n ≤ f₁ → n ≤ f₂ →
      dpF b a f₁ i j = dpF b a f₂ i j := by
  induction n using Nat.strong_induction_on with
  | _ n ih =>
    intro i j f₁ f₂ hn h1 h2
    cases i with
    | zero => rw [dpF_zero_left, dpF_zero_left]
    | succ i =>
      cases j with
      | zero => rw [dpF_succ_zero, dpF_succ_zero]
      | succ j =>
        subst hn
        cases f₁ with
        | zero => omega
        | succ f₁ =>
          cases f₂ with
          | zero => omega
          | succ f₂ =>
            simp only [dpF]
            rw [ih (i + j) (by omega) i j f₁ f₂ rfl (by omega) (by omega),
              ih (i + 1 + j) (by omega) (i + 1) j f₁ f₂ rfl (by omega) (by omega),
              ih (i + (j + 1)) (by omega) i (j + 1) f₁ f₂ rfl (by omega) (by omega)]

theorem dp_zero_left (b a : List Char) (j : Nat) : dp b a 0 j = j := by
  unfold dp; rw [dpF_zero_left]

theorem dp_succ_zero (b a : List Char) (i : Nat) : dp b a (i + 1) 0 = i + 1 := by
  unfold dp; rw [dpF_succ_zero]

theorem dp_succ_succ (b a : List Char) (i j : Nat) :
    dp b a (i + 1) (j + 1) =
      (let cost : Nat := if b[i]? = a[j]? then 0 else 1
       let rep := dp b a i j + cost
       let ins := dp b a (i + 1) j + 1
       let del := dp b a i (j + 1) + 1
       let best2 := if ins < rep then ins else rep
       if del < best2 then del else best2) := by
  show dpF b a (i + 1 + (j + 1)) (i + 1) (j + 1) = _
  have h : i + 1 + (j + 1) = (i + j + 1) + 1 := by omega
  rw [h]
  simp only [dpF, dp]
  rw [dpF_eq_of_le b a (i + j) i j (i + j + 1) (i + j) rfl (by omega) (by omega),
    dpF_eq_of_le b a (i + 1 + j) (i + 1) j (i + j + 1) (i + 1 + j) rfl (by omega) (by omega),
    dpF_eq_of_le b a (i + (j + 1)) i (j + 1) (i + j + 1) (i + (j + 1)) rfl (by omega) (by omega)]

theorem btLoopF_zero_zero (b a : List Char) (f : Nat) (mask : List Bool) :
    btLoopF b a f 0 0 mask = mask := by
  cases f <;> rfl

theorem btLoopF_eq_of_le (b a : List Char) (n : Nat) :
    ∀ i j f₁ f₂ mask, i + j = n → n ≤ f₁ → n ≤ f₂ →
      btLoopF b a f₁ i j mask = btLoopF b a f₂ i j mask := by
  induction n using Nat.strong_induction_on with
  | _ n ih =>
    intro i j f₁ f₂ mask hn h1 h2
    cases i with
    | zero =>
      cases j with
      | zero => rw [btLoopF_zero_zero, btLoopF_zero_zero]
      | succ j =>
        subst hn
        cases f₁ with
        | zero => omega
        | succ f₁ =>
          cases f₂ with
          | zero => omega
          | succ f₂ =>
            simp only [btLoopF]
            exact ih j (by omega) 0 j f₁ f₂ _ (by omega) (by omega) (by omega)
    | succ i =>
      cases j with
      | zero =>
        subst hn
        cases f₁ with
        | zero => omega
        | succ f₁ =>
          cases f₂ with
          | zero => omega
          | succ f₂ =>
            simp only [btLoopF]
            exact ih i (by omega) i 0 f₁ f₂ _ rfl (by omega) (by omega)
      | succ j =>
        subst hn
        cases f₁ with
        | zero => omega
        | succ f₁ =>
          cases f₂ with
          | zero => omega
          | succ f₂ =>
            simp only [btLoopF]
            cases hc : cellOp b a i j
            · exact ih (i + j) (by omega) i j f₁ f₂ _ rfl (by omega) (by omega)
            · exact ih (i + j) (by omega) i j f₁ f₂ _ rfl (by omega) (by omega)
            · exact ih (i + 1 + j) (by omega) (i + 1) j f₁ f₂ _ rfl (by omega) (by omega)
            · exact ih (i + (j + 1)) (by omega) i (j + 1) f₁ f₂ _ rfl (by omega) (by omega)

theorem btLoop_zero_zero (b a : List Char) (mask : List Bool) :
    btLoop b a 0 0 mask = mask := by
  unfold btLoop; rw [btLoopF_zero_zero]

theorem btLoop_zero_succ (b a : List Char) (j : Nat) (mask : List Bool) :
    btLoop b a 0 (j + 1) mask = btLoop b a 0 j (mask.set j true) := by
  unfold btLoop
  have h : 0 + (j + 1) = (0 + j) + 1 := by omega
  rw [h]
  simp only [btLoopF]

theorem btLoop_succ_zero (b a : List Char) (i : Nat) (mask : List Bool) :
    btLoop b a (i + 1) 0 mask = btLoop b a i 0 mask := by
  unfold btLoop
  have h : i + 1 + 0 = (i + 0) + 1 := by omega
  rw [h]
  simp only [btLoopF]
  rfl

theorem btLoop_succ_succ (b a : List Char) (i j : Nat) (mask : List Bool) :
    btLoop b a (i + 1) (j + 1) mask =
      match cellOp b a i j with
      | EOp.eq => btLoop b a i j mask
      | EOp.rep => btLoop b a i j (mask.set j true)
      | EOp.ins => btLoop b a (i + 1) j (mask.set j true)
      | EOp.del => btLoop b a i (j + 1) mask := by
  unfold btLoop
  have h : i + 1 + (j + 1) = (i + j + 1) + 1 := by omega
  rw [h]
  simp only [btLoopF]
  cases hc : cellOp b a i j
  · exact btLoopF_eq_of_le b a (i + j) i j (i + j + 1) (i + j) mask rfl (by omega) (by omega)
  · exact btLoopF_eq_of_le b a (i + j) i j (i + j + 1) (i + j) _ rfl (by omega) (by omega)
  · exact btLoopF_eq_of_le b a (i + 1 + j) (i + 1) j (i + j + 1) (i + 1 + j) _ rfl (by omega)
      (by omega)
  · exact btLoopF_eq_of_le b a (i + (j + 1)) i (j + 1) (i + j + 1) (i + (j + 1)) mask rfl
      (by omega) (by omega)

theorem btStepsF_zero_zero (b a : List Char) (f : Nat) : btStepsF b a f 0 0 = [] := by
  cases f <;> rfl

theorem btStepsF_eq_of_le (b a : List Char) (n : Nat) :
    ∀ i j f₁ f₂, i + j = n → n ≤ f₁ → n ≤ f₂ →
      btStepsF b a f₁ i j = btStepsF b a f₂ i j := by
  induction n using Nat.strong_induction_on with
  | _ n ih =>
    intro i j f₁ f₂ hn h1 h2
    cases i with
    | zero =>
      cases j with
      | zero => rw [btStepsF_zero_zero, btStepsF_zero_zero]
      | succ j =>
        subst hn
        cases f₁ with
        | zero => omega
        | succ f₁ =>
          cases f₂ with
          | zero => omega
          | succ f₂ =>
            simp only [btStepsF]
            rw [ih j (by omega) 0 j f₁ f₂ (by omega) (by omega) (by omega)]
    | succ i =>
      cases j with
      | zero =>
        subst hn
        cases f₁ with
        | zero => omega
        | succ f₁ =>
          cases f₂ with
          | zero => omega
          | succ f₂ =>
            simp only [btStepsF]
            rw [ih i (by omega) i 0 f₁ f₂ rfl (by omega) (by omega)]
      | succ j =>
        subst hn
        cases f₁ with
        | zero => omega
        | succ f₁ =>
          cases f₂ with
          | zero => omega
          | succ f₂ =>
            simp only [btStepsF]
            cases hc : cellOp b a i j
            · rw [ih (i + j) (by omega) i j f₁ f₂ rfl (by omega) (by omega)]
            · rw [ih (i + j) (by omega) i j f₁ f₂ rfl (by omega) (by omega)]
            · rw [ih (i + 1 + j) (by omega) (i + 1) j f₁ f₂ rfl (by omega) (by omega)]
            · rw [ih (i + (j + 1)) (by omega) i (j + 1) f₁ f₂ rfl (by omega) (by omega)]

theorem btSteps_zero_zero (b a : List Char) : btSteps b a 0 0 = [] := by
  unfold btSteps; rw [btStepsF_zero_zero]

theorem btSteps_zero_succ (b a : List Char) (j : Nat) :
    btSteps b a 0 (j + 1) = EStep.ins j :: btSteps b a 0 j := by
  unfold btSteps
  have h : 0 + (j + 1) = (0 + j) + 1 := by omega
  rw [h]
  simp only [btStepsF]

theorem btSteps_succ_zero (b a : List Char) (i : Nat) :
    btSteps b a (i + 1) 0 = EStep.del i :: btSteps b a i 0 := by
  unfold btSteps
  have h : i + 1 + 0 = (i + 0) + 1 := by omega
  rw [h]
  simp only [btStepsF]
  rfl

theorem btSteps_succ_succ (b a : List Char) (i j : Nat) :
    btSteps b a (i + 1) (j + 1) =
      match cellOp b a i j with
      | EOp.eq => EStep.eq j :: btSteps b a i j
      | EOp.rep => EStep.rep j :: btSteps b a i j
      | EOp.ins => EStep.ins j :: btSteps b a (i + 1) j
      | EOp.del => EStep.del i :: btSteps b a i (j + 1) := by
  unfold btSteps
  have h : i + 1 + (j + 1) = (i + j + 1) + 1 := by omega
  rw [h]
  simp only [btStepsF]
  cases hc : cellOp b a i j
  · rw [btStepsF_eq_of_le b a (i + j) i j (i + j + 1) (i + j) rfl (by omega) (by omega)]
  · rw [btStepsF_eq_of_le b a (i + j) i j (i + j + 1) (i + j) rfl (by omega) (by omega)]
  · rw [btStepsF_eq_of_le b a (i + 1 + j) (i + 1) j (i + j + 1) (i + 1 + j) rfl (by omega)
      (by omega)]
  · rw [btStepsF_eq_of_le b a (i + (j + 1)) i (j + 1) (i + j + 1) (i + (j + 1)) rfl (by omega)
      (by omega)]

/-! ### Properties of the cost table -/

theorem dp_ge (b a : List Char) (n : Nat) :
    ∀ i j, i + j = n → j - i ≤ dp b a i j ∧ i - j ≤ dp b a i j := by
  induction n using Nat.strong_induction_on with
  | _ n ih =>
    intro i j hn
    cases i with
    | zero => rw [dp_zero_left]; omega
    | succ i =>
      cases j with
      | zero => rw [dp_succ_zero]; omega
      | succ j =>
        have h1 := ih (i + j) (by omega) i j rfl
        have h2 := ih (i + 1 + j) (by omega) (i + 1) j rfl
        have h3 := ih (i + (j + 1)) (by omega) i (j + 1) rfl
        rw [dp_succ_succ]
        simp only
        split_ifs <;> omega

theorem dp_succ_succ_le (b a : List Char) (i j : Nat) :
    dp b a (i + 1) (j + 1) ≤ dp b a i j + 1 ∧
      dp b a (i + 1) (j + 1) ≤ dp b a (i + 1) j + 1 ∧
      dp b a (i + 1) (j + 1) ≤ dp b a i (j + 1) + 1 := by
  rw [dp_succ_succ]
  simp only
  split_ifs <;> omega

theorem dp_lipschitz (b a : List Char) (n : Nat) :
    ∀ i j, i + j = n →
      dp b a i j ≤ dp b a (i + 1) j + 1 ∧ dp b a i j ≤ dp b a i (j + 1) + 1 := by
  induction n using Nat.strong_induction_on with
  | _ n ih =>
    intro i j hn
    cases i with
    | zero =>
      cases j with
      | zero =>
        have := dp_ge b a 1 1 0 rfl
        rw [dp_zero_left, dp_zero_left]
        omega
      | succ j =>
        have := dp_ge b a (1 + (j + 1)) 1 (j + 1) rfl
        rw [dp_zero_left, dp_zero_left]
        simp only [Nat.zero_add]
        omega
    | succ i =>
      cases j with
      | zero =>
        have := dp_ge b a (i + 1 + 1) (i + 1) 1 rfl
        rw [dp_succ_zero, dp_succ_zero]
        simp only [Nat.zero_add]
        omega
      | succ j =>
        constructor
        · -- dp (i+1) (j+1) ≤ dp (i+2) (j+1) + 1
          have hv := (ih (i + 1 + j) (by omega) (i + 1) j rfl).1
          have he := (dp_succ_succ_le b a i j).2.1
          have hx := dp_succ_succ_le b a (i + 1) j
          rw [dp_succ_succ b a (i + 1) j]
          simp only
          split_ifs <;> omega
        · -- dp (i+1) (j+1) ≤ dp (i+1) (j+2) + 1
          have hv := (ih (i + (j + 1)) (by omega) i (j + 1) rfl).2
          have he := (dp_succ_succ_le b a i j).2.2
          rw [dp_succ_succ b a i (j + 1)]
          simp only
          split_ifs <;> omega

theorem dp_succ_succ_eq_zero_iff (b a : List Char) (i j : Nat) :
    dp b a (i + 1) (j + 1) = 0 ↔ (dp b a i j = 0 ∧ b[i]? = a[j]?) := by
  rw [dp_succ_succ]
  simp only
  by_cases hc : b[i]? = a[j]?
  · rw [if_pos hc]
    simp only [hc, eq_self_iff_true, and_true]
    split_ifs <;> first
      | omega
      | (rw [false_iff]; omega)
  · rw [if_neg hc]
    simp only [hc, and_false, iff_false]
    split_ifs <;> simp

theorem dp_eq_zero_iff (b a : List Char) (n : Nat) :
    ∀ i j, i + j = n → i ≤ b.length → j ≤ a.length →
      (dp b a i j = 0 ↔ b.take i = a.take j) := by
  induction n using Nat.strong_induction_on with
  | _ n ih =>
    intro i j hn hi hj
    cases i with
    | zero =>
      rw [dp_zero_left]
      simp only [List.take_zero]
      constructor
      · intro h
        subst h
        simp
      · intro h
        rcases List.take_eq_nil_iff.mp h.symm with h0 | h0
        · exact h0
        · subst h0
          simpa using hj
    | succ i =>
      cases j with
      | zero =>
        rw [dp_succ_zero]
        simp only [List.take_zero]
        constructor
        · omega
        · intro h
          rcases List.take_eq_nil_iff.mp h with h0 | h0
          · omega
          · subst h0
            simp at hi
      | succ j =>
        have hb : i < b.length := by omega
        have ha : j < a.length := by omega
        rw [dp_succ_succ_eq_zero_iff,
          ih (i + j) (by omega) i j rfl (by omega) (by omega),
          List.take_succ, List.take_succ]
        constructor
        · rintro ⟨h1, h2⟩
          rw [h1, h2]
        · intro h
          have hl1 : (b.take i).length = i := by
            rw [List.length_take]
            omega
          have hl2 : (a.take j).length = j := by
            rw [List.length_take]
            omega
          have hij : i = j := by
            have := congrArg List.length h
            rw [List.length_append, List.length_append, hl1, hl2,
              List.getElem?_eq_getElem hb, List.getElem?_eq_getElem ha] at this
            simpa using this
          have hparts := List.append_inj h (by rw [hl1, hl2, hij])
          refine ⟨hparts.1, ?_⟩
          have := hparts.2
          rw [List.getElem?_eq_getElem hb, List.getElem?_eq_getElem ha] at this ⊢
          simpa using this

theorem cellOp_eq_of_match (b a : List Char) (i j : Nat) (h : b[i]? = a[j]?) :
    cellOp b a i j = EOp.eq := by
  unfold cellOp
  simp only
  rw [if_pos h]
  have h1 := (dp_lipschitz b a (i + j) i j rfl).1
  have h2 := (dp_lipschitz b a (i + j) i j rfl).2
  rw [if_pos rfl]
  have hni : ¬ dp b a (i + 1) j + 1 < dp b a i j + 0 := by omega
  rw [if_neg hni, if_neg hni]
  have hnd : ¬ dp b a i (j + 1) + 1 < dp b a i j + 0 := by omega
  rw [if_neg hnd]

/-! ### Properties of the backtrace loop -/

theorem btLoopF_length (b a : List Char) (f : Nat) :
    ∀ i j mask, (btLoopF b a f i j mask).length = mask.length := by
  induction f with
  | zero =>
    intro i j mask
    cases i <;> cases j <;> rfl
  | succ f ihf =>
    intro i j mask
    cases i with
    | zero =>
      cases j with
      | zero => rfl
      | succ j =>
        show (btLoopF b a f 0 j (mask.set j true)).length = mask.length
        rw [ihf, List.length_set]
    | succ i =>
      cases j with
      | zero =>
        show (btLoopF b a f i 0 mask).length = mask.length
        exact ihf i 0 mask
      | succ j =>
        simp only [btLoopF]
        cases hc : cellOp b a i j
        · exact ihf i j mask
        · rw [ihf, List.length_set]
        · rw [ihf, List.length_set]
        · exact ihf i (j + 1) mask

theorem btLoop_length (b a : List Char) (i j : Nat) (mask : List Bool) :
    (btLoop b a i j mask).length = mask.length :=
  btLoopF_length b a (i + j) i j mask

theorem btLoopF_getElem_ge (b a : List Char) (f : Nat) :
    ∀ i j mask p, j ≤ p → (btLoopF b a f i j mask)[p]? = mask[p]? := by
  induction f with
  | zero =>
    intro i j mask p hp
    cases i <;> cases j <;> rfl
  | succ f ihf =>
    intro i j mask p hp
    cases i with
    | zero =>
      cases j with
      | zero => rfl
      | succ j =>
        show (btLoopF b a f 0 j (mask.set j true))[p]? = mask[p]?
        rw [ihf 0 j _ p (by omega), List.getElem?_set_ne (by omega)]
    | succ i =>
      cases j with
      | zero =>
        show (btLoopF b a f i 0 mask)[p]? = mask[p]?
        exact ihf i 0 mask p (by omega)
      | succ j =>
        simp only [btLoopF]
        cases hc : cellOp b a i j
        · exact ihf i j mask p (by omega)
        · rw [ihf i j _ p (by omega), List.getElem?_set_ne (by omega)]
        · rw [ihf (i + 1) j _ p (by omega), List.getElem?_set_ne (by omega)]
        · exact ihf i (j + 1) mask p hp

theorem btLoop_getElem_ge (b a : List Char) (i j : Nat) (mask : List Bool) (p : Nat)
    (hp : j ≤ p) : (btLoop b a i j mask)[p]? = mask[p]? :=
  btLoopF_getElem_ge b a (i + j) i j mask p hp

theorem btLoop_common_suffix (w e s : List Char) :
    ∀ k, k ≤ e.length → ∀ mask,
      btLoop (w ++ e) (s ++ e) (w.length + k) (s.length + k) mask =
        btLoop (w ++ e) (s ++ e) w.length s.length mask := by
  intro k
  induction k with
  | zero => intro hk mask; rfl
  | succ k ihk =>
    intro hk mask
    have hb : (w ++ e)[w.length + k]? = e[k]? := by
      rw [List.getElem?_append_right (by omega)]
      congr 1
      omega
    have ha : (s ++ e)[s.length + k]? = e[k]? := by
      rw [List.getElem?_append_right (by omega)]
      congr 1
      omega
    have hcell : cellOp (w ++ e) (s ++ e) (w.length + k) (s.length + k) = EOp.eq :=
      cellOp_eq_of_match _ _ _ _ (by rw [hb, ha])
    have h1 : w.length + (k + 1) = (w.length + k) + 1 := by omega
    have h2 : s.length + (k + 1) = (s.length + k) + 1 := by omega
    rw [h1, h2, btLoop_succ_succ, hcell]
    exact ihk (by omega) mask

/-! ### Basic guarantees of editMask -/

theorem editMask_snd_length (actual expected : List Char) :
    (editMask actual expected).2.length = actual.length := by
  unfold editMask
  rw [btLoop_length, List.length_replicate]

theorem editMask_fst_eq_zero_iff (actual expected : List Char) :
    (editMask actual expected).1 = 0 ↔ actual = expected := by
  unfold editMask
  rw [dp_eq_zero_iff expected actual (expected.length + actual.length) _ _ rfl le_rfl le_rfl,
    List.take_length, List.take_length]
  exact eq_comm

theorem editMask_self_snd (x : List Char) :
    (editMask x x).2 = List.replicate x.length false := by
  unfold editMask
  have h := btLoop_common_suffix [] x [] x.length le_rfl
    (List.replicate x.length false)
  simp only [List.nil_append, List.length_nil, Nat.zero_add] at h
  rw [h, btLoop_zero_zero]

theorem editMask_self_fst (x : List Char) : (editMask x x).1 = 0 :=
  (editMask_fst_eq_zero_iff x x).mpr rfl

/-! ### The mask is the replay of the backtraced edit path -/

theorem btLoopF_eq_applySteps (b a : List Char) (f : Nat) :
    ∀ i j mask, btLoopF b a f i j mask = applySteps mask (btStepsF b a f i j) := by
  induction f with
  | zero =>
    intro i j mask
    cases i <;> cases j <;> rfl
  | succ f ihf =>
    intro i j mask
    cases i with
    | zero =>
      cases j with
      | zero => rfl
      | succ j =>
        show btLoopF b a f 0 j (mask.set j true) =
          applySteps mask (EStep.ins j :: btStepsF b a f 0 j)
        rw [ihf]
        rfl
    | succ i =>
      cases j with
      | zero =>
        show btLoopF b a f i 0 mask = applySteps mask (EStep.del i :: btStepsF b a f i 0)
        rw [ihf]
        rfl
      | succ j =>
        simp only [btLoopF, btStepsF]
        cases hc : cellOp b a i j <;> simp only [] <;> rw [ihf] <;> rfl

theorem editMask_snd_eq_applySteps (actual expected : List Char) :
    (editMask actual expected).2 =
      applySteps (List.replicate actual.length false)
        (btSteps expected actual expected.length actual.length) :=
  btLoopF_eq_applySteps expected actual (expected.length + actual.length)
    expected.length actual.length (List.replicate actual.length false)

theorem applySteps_getElem_of_not_marked (steps : List EStep) :
    ∀ mask p, (∀ st ∈ steps, marksMask st ≠ some p) →
      (applySteps mask steps)[p]? = mask[p]? := by
  induction steps with
  | nil => intro mask p _; rfl
  | cons st rest ih =>
    intro mask p h
    unfold applySteps
    cases hm : marksMask st with
    | none => exact ih mask p fun s hs => h s (List.mem_cons_of_mem st hs)
    | some q =>
      have hq : q ≠ p := fun hqp => h st (List.mem_cons_self st rest) (by rw [hm, hqp])
      rw [ih (mask.set q true) p fun s hs => h s (List.mem_cons_of_mem st hs),
        List.getElem?_set_ne hq]

theorem applySteps_getElem_true_mono (steps : List EStep) :
    ∀ (mask : List Bool) (p : Nat), mask[p]? = some true →
      (applySteps mask steps)[p]? = some true := by
  induction steps with
  | nil => intro mask p h; exact h
  | cons st rest ih =>
    intro mask p h
    unfold applySteps
    cases hm : marksMask st with
    | none => exact ih mask p h
    | some q =>
      refine ih (mask.set q true) p ?_
      by_cases hq : q = p
      · subst hq
        have hlt : q < mask.length := by
          by_contra hge
          rw [List.getElem?_eq_none (by omega)] at h
          exact Option.noConfusion h
        rw [List.getElem?_set_eq_of_lt true hlt]
      · rw [List.getElem?_set_ne hq]
        exact h

theorem applySteps_getElem_of_marked (steps : List EStep) :
    ∀ mask p, (∃ st ∈ steps, marksMask st = some p) → p < mask.length →
      (applySteps mask steps)[p]? = some true := by
  induction steps with
  | nil =>
    intro mask p h _
    rcases h with ⟨st, hst, _⟩
    exact absurd hst (List.not_mem_nil st)
  | cons st rest ih =>
    intro mask p h hp
    unfold applySteps
    rcases h with ⟨s, hs, hms⟩
    rcases List.mem_cons.mp hs with hhead | htail
    · subst hhead
      rw [hms]
      exact applySteps_getElem_true_mono rest _ p
        (List.getElem?_set_eq_of_lt true hp)
    · cases hm : marksMask st with
      | none => exact ih mask p ⟨s, htail, hms⟩ hp
      | some q =>
        exact ih (mask.set q true) p ⟨s, htail, hms⟩ (by rw [List.length_set]; exact hp)

theorem countP_att_cons (st : EStep) (l : List EStep) (p : Nat) :
    ((st :: l).countP fun s => decide (attIdx s = some p)) =
      (l.countP fun s => decide (attIdx s = some p)) +
        (if attIdx st = some p then 1 else 0) := by
  rw [List.countP_cons]
  by_cases h : attIdx st = some p
  · rw [if_pos h, if_pos (by simp [h])]
  · rw [if_neg h, if_neg (by simp [h])]

theorem btSteps_attIdx_count (b a : List Char) (n : Nat) :
    ∀ i j p, i + j = n →
      ((btSteps b a i j).countP fun st => decide (attIdx st = some p)) =
        if p < j then 1 else 0 := by
  induction n using Nat.strong_induction_on with
  | _ n ih =>
    intro i j p hn
    cases i with
    | zero =>
      cases j with
      | zero =>
        rw [btSteps_zero_zero]
        simp
      | succ j =>
        rw [btSteps_zero_succ, countP_att_cons,
          ih j (by omega) 0 j p (by omega)]
        simp only [attIdx, Option.some.injEq]
        split_ifs <;> omega
    | succ i =>
      cases j with
      | zero =>
        rw [btSteps_succ_zero, countP_att_cons,
          ih i (by omega) i 0 p rfl]
        simp only [attIdx]
        rw [if_neg (fun h => Option.noConfusion h)]
        split_ifs <;> omega
      | succ j =>
        rw [btSteps_succ_succ]
        cases hc : cellOp b a i j
        · rw [countP_att_cons, ih (i + j) (by omega) i j p rfl]
          simp only [attIdx, Option.some.injEq]
          split_ifs <;> omega
        · rw [countP_att_cons, ih (i + j) (by omega) i j p rfl]
          simp only [attIdx, Option.some.injEq]
          split_ifs <;> omega
        · rw [countP_att_cons, ih (i + 1 + j) (by omega) (i + 1) j p rfl]
          simp only [attIdx, Option.some.injEq]
          split_ifs <;> omega
        · rw [countP_att_cons, ih (i + (j + 1)) (by omega) i (j + 1) p rfl]
          simp only [attIdx]
          rw [if_neg (fun h => Option.noConfusion h)]
          split_ifs <;> omega

theorem marksMask_eq_some (st : EStep) (p : Nat) (h : marksMask st = some p) :
    st = EStep.rep p ∨ st = EStep.ins p := by
  cases st with
  | eq j => exact absurd h (by simp [marksMask])
  | rep j =>
    left
    simp only [marksMask, Option.some.injEq] at h
    rw [h]
  | ins j =>
    right
    simp only [marksMask, Option.some.injEq] at h
    rw [h]
  | del i => exact absurd h (by simp [marksMask])

theorem btSteps_unique_att (b a : List Char) (i j p : Nat)
    (heq : EStep.eq p ∈ btSteps b a i j) :
    EStep.rep p ∉ btSteps b a i j ∧ EStep.ins p ∉ btSteps b a i j := by
  have hc := btSteps_attIdx_count b a (i + j) i j p rfl
  have hcount : (btSteps b a i j).countP (fun st => decide (attIdx st = some p)) ≤ 1 := by
    rw [hc]
    split_ifs <;> omega
  rw [List.countP_eq_length_filter] at hcount
  have hmemf : EStep.eq p ∈ (btSteps b a i j).filter (fun st => decide (attIdx st = some p)) :=
    List.mem_filter.mpr ⟨heq, by simp [attIdx]⟩
  constructor
  · intro hrep
    have hmemr : EStep.rep p ∈
        (btSteps b a i j).filter (fun st => decide (attIdx st = some p)) :=
      List.mem_filter.mpr ⟨hrep, by simp [attIdx]⟩
    rcases hfl : (btSteps b a i j).filter (fun st => decide (attIdx st = some p)) with
      _ | ⟨x, _ | ⟨y, rest⟩⟩
    · rw [hfl] at hmemf
      exact absurd hmemf (List.not_mem_nil _)
    · rw [hfl] at hmemf hmemr
      have h1 := List.mem_singleton.mp hmemf
      have h2 := List.mem_singleton.mp hmemr
      rw [← h1] at h2
      exact EStep.noConfusion h2
    · rw [hfl] at hcount
      simp at hcount
  · intro hins
    have hmemr : EStep.ins p ∈
        (btSteps b a i j).filter (fun st => decide (attIdx st = some p)) :=
      List.mem_filter.mpr ⟨hins, by simp [attIdx]⟩
    rcases hfl : (btSteps b a i j).filter (fun st => decide (attIdx st = some p)) with
      _ | ⟨x, _ | ⟨y, rest⟩⟩
    · rw [hfl] at hmemf
      exact absurd hmemf (List.not_mem_nil _)
    · rw [hfl] at hmemf hmemr
      have h1 := List.mem_singleton.mp hmemf
      have h2 := List.mem_singleton.mp hmemr
      rw [← h1] at h2
      exact EStep.noConfusion h2
    · rw [hfl] at hcount
      simp at hcount

theorem editMask_mask_iff_path (actual expected : List Char) (p : Nat)
    (hp : p < actual.length) :
    (editMask actual expected).2[p]? = some true ↔
      (EStep.rep p ∈ btSteps expected actual expected.length actual.length ∨
       EStep.ins p ∈ btSteps expected actual expected.length actual.length) := by
  rw [editMask_snd_eq_applySteps]
  constructor
  · intro h
    by_contra hno
    push_neg at hno
    have hnm : ∀ st ∈ btSteps expected actual expected.length actual.length,
        marksMask st ≠ some p := by
      intro st hst hms
      rcases marksMask_eq_some st p hms with h1 | h1
      · exact hno.1 (h1 ▸ hst)
      · exact hno.2 (h1 ▸ hst)
    rw [applySteps_getElem_of_not_marked _ _ p hnm, List.getElem?_replicate] at h
    rw [if_pos hp] at h
    exact Bool.noConfusion (Option.some.inj h)
  · intro h
    apply applySteps_getElem_of_marked
    · rcases h with h | h
      · exact ⟨EStep.rep p, h, rfl⟩
      · exact ⟨EStep.ins p, h, rfl⟩
    · rw [List.length_replicate]
      exact hp

theorem editMask_mask_false_of_eqStep (actual expected : List Char) (p : Nat)
    (hp : p < actual.length)
    (h : EStep.eq p ∈ btSteps expected actual expected.length actual.length) :
    (editMask actual expected).2[p]? = some false := by
  have hu := btSteps_unique_att expected actual expected.length actual.length p h
  rw [editMask_snd_eq_applySteps]
  have hnm : ∀ st ∈ btSteps expected actual expected.length actual.length,
      marksMask st ≠ some p := by
    intro st hst hms
    rcases marksMask_eq_some st p hms with h1 | h1
    · exact hu.1 (h1 ▸ hst)
    · exact hu.2 (h1 ▸ hst)
  rw [applySteps_getElem_of_not_marked _ _ p hnm, List.getElem?_replicate, if_pos hp]

/-! ### Tie-breaking of the backtrace table -/

theorem cellOp_of_rep_le (b a : List Char) (i j : Nat)
    (h1 : dp b a i j + (if b[i]? = a[j]? then 0 else 1) ≤ dp b a (i + 1) j + 1)
    (h2 : dp b a i j + (if b[i]? = a[j]? then 0 else 1) ≤ dp b a i (j + 1) + 1) :
    cellOp b a i j = if b[i]? = a[j]? then EOp.eq else EOp.rep := by
  unfold cellOp
  simp only
  split_ifs at h1 h2 ⊢ <;> first | rfl | contradiction | omega | (exfalso; omega)

theorem cellOp_of_ins_lt (b a : List Char) (i j : Nat)
    (h1 : dp b a (i + 1) j + 1 < dp b a i j + (if b[i]? = a[j]? then 0 else 1))
    (h2 : dp b a (i + 1) j + 1 ≤ dp b a i (j + 1) + 1) :
    cellOp b a i j = EOp.ins := by
  unfold cellOp
  simp only
  split_ifs at h1 h2 ⊢ <;> first | rfl | contradiction | omega | (exfalso; omega)

theorem cellOp_of_del_lt (b a : List Char) (i j : Nat)
    (h1 : dp b a i (j + 1) + 1 < dp b a i j + (if b[i]? = a[j]? then 0 else 1))
    (h2 : dp b a i (j + 1) + 1 < dp b a (i + 1) j + 1) :
    cellOp b a i j = EOp.del := by
  unfold cellOp
  simp only
  split_ifs at h1 h2 ⊢ <;> first | rfl | contradiction | omega | (exfalso; omega)

/-! ### Claim C1 -/

/-- C1: for every pair of finite strings (attested, expected), `editMask`
returns a mask whose length equals the length of the attested string, and its
cost is `0` iff the attested string equals the expected one, in which case the
mask is all-false; in particular, any string among the generated expected
variants aligned against itself has cost `0` and an all-false mask. -/
theorem C1_editMask_guarantees (attested expected : List Char) :
    (editMask attested expected).2.length = attested.length ∧
    ((editMask attested expected).1 = 0 ↔ attested = expected) ∧
    (attested = expected →
      (editMask attested expected).2 = List.replicate attested.length false) ∧
    (∀ (inf : List Char) (tk : Tense) (p : Fin 6) (stems : Option (List Char)),
      ∀ x ∈ expectedRegularVariants inf tk p stems,
        (editMask x x).1 = 0 ∧ (editMask x x).2 = List.replicate x.length false) := by
  refine ⟨editMask_snd_length attested expected,
    editMask_fst_eq_zero_iff attested expected, ?_, ?_⟩
  · intro h
    subst h
    exact editMask_self_snd attested
  · intro inf tk p stems x _
    exact ⟨editMask_self_fst x, editMask_self_snd x⟩

/-- Witness for C1 at the concrete input `attested = expected = "parle"` and
the variant `x = "parle"` generated for `parler`, present, je. -/
theorem C1_editMask_guarantees_witness :
    (editMask "parle".toList "parle".toList).2.length = 5 ∧
    (editMask "parle".toList "parle".toList).1 = 0 ∧
    (editMask "parle".toList "parle".toList).2 = List.replicate 5 false ∧
    ("parle".toList ∈ expectedRegularVariants "parler".toList Tense.present 0 none ∧
      (editMask "parle".toList "parle".toList).1 = 0) := by
  have h := C1_editMask_guarantees "parle".toList "parle".toList
  have hmem : "parle".toList ∈ expectedRegularVariants "parler".toList Tense.present 0 none := by
    decide
  exact ⟨h.1, h.2.1.mpr rfl, h.2.2.1 rfl,
    hmem, (h.2.2.2 "parler".toList Tense.present 0 none "parle".toList hmem).1⟩

/-! ### Claim C2 -/

/-- C2: the mask returned by `editMask` is the replay of the backtraced edit
path over an all-false mask; it is true exactly at the attested-side positions
that the path assigns a substitution (`rep`) or insertion (`ins`) step and
false at positions assigned an exact match; deletion steps carry no
attested-side position and set no mask entry; and ties in the backtrace table
are broken by the fixed preference order (substitution/match first, then
insertion, then deletion), scanning from the end of both strings toward the
start (the step list is built from cell `(m, n)` downward). -/
theorem C2_editMask_backtrace (attested expected : List Char) (p : Nat)
    (hp : p < attested.length) :
    ((editMask attested expected).2 =
      applySteps (List.replicate attested.length false)
        (btSteps expected attested expected.length attested.length)) ∧
    ((editMask attested expected).2[p]? = some true ↔
      (EStep.rep p ∈ btSteps expected attested expected.length attested.length ∨
       EStep.ins p ∈ btSteps expected attested expected.length attested.length)) ∧
    (EStep.eq p ∈ btSteps expected attested expected.length attested.length →
      (editMask attested expected).2[p]? = some false) ∧
    (∀ st : EStep, marksMask st = some p → st = EStep.rep p ∨ st = EStep.ins p) ∧
    (∀ i : Nat, marksMask (EStep.del i) = none) ∧
    (∀ i j : Nat,
      (dp expected attested i j + (if expected[i]? = attested[j]? then 0 else 1) ≤
          dp expected attested (i + 1) j + 1 →
        dp expected attested i j + (if expected[i]? = attested[j]? then 0 else 1) ≤
          dp expected attested i (j + 1) + 1 →
        cellOp expected attested i j =
          if expected[i]? = attested[j]? then EOp.eq else EOp.rep) ∧
      (dp expected attested (i + 1) j + 1 <
          dp expected attested i j + (if expected[i]? = attested[j]? then 0 else 1) →
        dp expected attested (i + 1) j + 1 ≤ dp expected attested i (j + 1) + 1 →
        cellOp expected attested i j = EOp.ins) ∧
      (dp expected attested i (j + 1) + 1 <
          dp expected attested i j + (if expected[i]? = attested[j]? then 0 else 1) →
        dp expected attested i (j + 1) + 1 < dp expected attested (i + 1) j + 1 →
        cellOp expected attested i j = EOp.del)) := by
  refine ⟨editMask_snd_eq_applySteps attested expected,
    editMask_mask_iff_path attested expected p hp,
    editMask_mask_false_of_eqStep attested expected p hp,
    fun st => marksMask_eq_some st p, fun i => rfl, fun i j => ?_⟩
  exact ⟨cellOp_of_rep_le expected attested i j,
    cellOp_of_ins_lt expected attested i j,
    cellOp_of_del_lt expected attested i j⟩

/-- Witness for C2 at `attested = "ab"`, `expected = "b"`, position 0: the
backtrace assigns position 0 an insertion step, and the mask is true there. -/
theorem C2_editMask_backtrace_witness :
    (0 < "ab".toList.length) ∧
    ((editMask "ab".toList "b".toList).2[0]? = some true ↔
      (EStep.rep 0 ∈ btSteps "b".toList "ab".toList 1 2 ∨
       EStep.ins 0 ∈ btSteps "b".toList "ab".toList 1 2)) :=
  ⟨by decide, (C2_editMask_backtrace "ab".toList "b".toList 0 (by decide)).2.1⟩

/-! ### Properties of the best-variant selection loop -/

theorem bestLoop_all_ge (actual : List Char) :
    ∀ (vs : List (List Char)) (c : Nat) (m : List Bool),
      (∀ v ∈ vs, c ≤ (editMask actual v).1) →
      bestLoop actual vs (some c) (some m) = some m := by
  intro vs
  induction vs with
  | nil => intro c m _; rfl
  | cons v rest ih =>
    intro c m h
    unfold bestLoop
    simp only
    have hv : ¬ ltScore (editMask actual v).1 (some c) = true := by
      have := h v (List.mem_cons_self v rest)
      simp [ltScore]
      omega
    rw [if_neg hv]
    exact ih c m fun w hw => h w (List.mem_cons_of_mem v hw)

theorem bestLoop_exists_lt (actual : List Char) :
    ∀ (vs : List (List Char)) (c : Nat) (m : List Bool),
      (∃ v ∈ vs, (editMask actual v).1 < c) →
      ∃ k, k < vs.length ∧
        (editMask actual (vs.getD k [])).1 < c ∧
        (∀ l, l < vs.length →
          (editMask actual (vs.getD k [])).1 ≤ (editMask actual (vs.getD l [])).1) ∧
        (∀ l, l < k →
          (editMask actual (vs.getD k [])).1 < (editMask actual (vs.getD l [])).1) ∧
        bestLoop actual vs (some c) (some m) = some (editMask actual (vs.getD k [])).2 := by
  intro vs
  induction vs with
  | nil =>
    intro c m h
    rcases h with ⟨v, hv, _⟩
    exact absurd hv (List.not_mem_nil v)
  | cons v rest ih =>
    intro c m h
    unfold bestLoop
    simp only
    by_cases hv : (editMask actual v).1 < c
    · rw [if_pos (by simp [ltScore]; omega)]
      by_cases hz : (editMask actual v).1 = 0
      · rw [if_pos hz]
        refine ⟨0, by simp, ?_, ?_, ?_, ?_⟩
        · rw [List.getD_cons_zero]
          omega
        · intro l _
          rw [List.getD_cons_zero, hz]
          exact Nat.zero_le _
        · intro l hl
          omega
        · rw [List.getD_cons_zero]
      · rw [if_neg hz]
        by_cases hex : ∃ w ∈ rest, (editMask actual w).1 < (editMask actual v).1
        · obtain ⟨k', hk', hlt, hmin, hstrict, hres⟩ :=
            ih (editMask actual v).1 (editMask actual v).2 hex
          refine ⟨k' + 1, by simpa using hk', ?_, ?_, ?_, ?_⟩
          · rw [List.getD_cons_succ]
            omega
          · intro l hl
            cases l with
            | zero =>
              rw [List.getD_cons_succ, List.getD_cons_zero]
              omega
            | succ l =>
              rw [List.getD_cons_succ, List.getD_cons_succ]
              exact hmin l (by simpa using hl)
          · intro l hl
            cases l with
            | zero =>
              rw [List.getD_cons_succ, List.getD_cons_zero]
              omega
            | succ l =>
              rw [List.getD_cons_succ, List.getD_cons_succ]
              exact hstrict l (by omega)
          · rw [List.getD_cons_succ]
            exact hres
        · push_neg at hex
          rw [bestLoop_all_ge actual rest (editMask actual v).1 (editMask actual v).2 hex]
          refine ⟨0, by simp, ?_, ?_, ?_, ?_⟩
          · rw [List.getD_cons_zero]
            omega
          · intro l hl
            cases l with
            | zero => rw [List.getD_cons_zero]
            | succ l =>
              have hl' : l < rest.length := by simpa using hl
              rw [List.getD_cons_zero, List.getD_cons_succ,
                List.getD_eq_getElem rest [] hl']
              exact hex rest[l] (List.getElem_mem hl')
          · intro l hl
            omega
          · rw [List.getD_cons_zero]
    · rw [if_neg (by simp [ltScore]; omega)]
      have hex : ∃ w ∈ rest, (editMask actual w).1 < c := by
        rcases h with ⟨w, hw, hwc⟩
        rcases List.mem_cons.mp hw with rfl | hw'
        · omega
        · exact ⟨w, hw', hwc⟩
      obtain ⟨k', hk', hlt, hmin, hstrict, hres⟩ := ih c m hex
      refine ⟨k' + 1, by simpa using hk', ?_, ?_, ?_, ?_⟩
      · rw [List.getD_cons_succ]
        omega
      · intro l hl
        cases l with
        | zero =>
          rw [List.getD_cons_succ, List.getD_cons_zero]
          omega
        | succ l =>
          rw [List.getD_cons_succ, List.getD_cons_succ]
          exact hmin l (by simpa using hl)
      · intro l hl
        cases l with
        | zero =>
          rw [List.getD_cons_succ, List.getD_cons_zero]
          omega
        | succ l =>
          rw [List.getD_cons_succ, List.getD_cons_succ]
          exact hstrict l (by omega)
      · rw [List.getD_cons_succ]
        exact hres

theorem bestLoop_break_at_zero (actual : List Char) :
    ∀ (vs1 : List (List Char)) (v0 : List Char) (vs2 : List (List Char))
      (bs : Option Nat) (m : Option (List Bool)),
      (editMask actual v0).1 = 0 → bs ≠ some 0 →
      bestLoop actual (vs1 ++ v0 :: vs2) bs m = bestLoop actual (vs1 ++ [v0]) bs m := by
  intro vs1
  induction vs1 with
  | nil =>
    intro v0 vs2 bs m h0 hbs
    show bestLoop actual (v0 :: vs2) bs m = bestLoop actual (v0 :: []) bs m
    unfold bestLoop
    simp only
    have hsc : ltScore (editMask actual v0).1 bs = true := by
      cases bs with
      | none => rfl
      | some s =>
        have hs : s ≠ 0 := fun h => hbs (by rw [h])
        simp only [ltScore, decide_eq_true_eq, h0]
        omega
    rw [if_pos hsc, if_pos h0, if_pos hsc, if_pos h0]
  | cons w vs1 ih =>
    intro v0 vs2 bs m h0 hbs
    show bestLoop actual (w :: (vs1 ++ v0 :: vs2)) bs m =
      bestLoop actual (w :: (vs1 ++ [v0])) bs m
    unfold bestLoop
    simp only
    by_cases hw : ltScore (editMask actual w).1 bs = true
    · rw [if_pos hw, if_pos hw]
      by_cases hz : (editMask actual w).1 = 0
      · rw [if_pos hz, if_pos hz]
      · rw [if_neg hz, if_neg hz]
        exact ih v0 vs2 (some (editMask actual w).1) (some (editMask actual w).2) h0
          (by simpa using hz)
    · rw [if_neg hw, if_neg hw]
      exact ih v0 vs2 bs m h0 hbs

/-! ### Claim C3 -/

/-- C3: `bestExpectedMask` returns `none` exactly when the variant list is
empty; otherwise it returns the mask of the first variant, in list order,
attaining the minimum edit cost over all variants; and it stops scanning as
soon as a variant of cost `0` is reached (later variants do not matter). -/
theorem C3_bestExpectedMask_selection (actual : List Char) (variants : List (List Char)) :
    (bestExpectedMask actual variants = none ↔ variants = []) ∧
    (variants ≠ [] →
      ∃ k, k < variants.length ∧
        (∀ l, l < variants.length →
          (editMask actual (variants.getD k [])).1 ≤
            (editMask actual (variants.getD l [])).1) ∧
        (∀ l, l < k →
          (editMask actual (variants.getD k [])).1 <
            (editMask actual (variants.getD l [])).1) ∧
        bestExpectedMask actual variants = some (editMask actual (variants.getD k [])).2) ∧
    (∀ (vs1 vs2 : List (List Char)) (v0 : List Char), (editMask actual v0).1 = 0 →
      bestExpectedMask actual (vs1 ++ v0 :: vs2) =
        bestExpectedMask actual (vs1 ++ [v0])) := by
  have hmain : variants ≠ [] →
      ∃ k, k < variants.length ∧
        (∀ l, l < variants.length →
          (editMask actual (variants.getD k [])).1 ≤
            (editMask actual (variants.getD l [])).1) ∧
        (∀ l, l < k →
          (editMask actual (variants.getD k [])).1 <
            (editMask actual (variants.getD l [])).1) ∧
        bestExpectedMask actual variants = some (editMask actual (variants.getD k [])).2 := by
    intro hne
    match variants, hne with
    | v :: rest, _ =>
      unfold bestExpectedMask
      rw [if_neg (by simp)]
      unfold bestLoop
      simp only
      have hsc : ltScore (editMask actual v).1 none = true := rfl
      rw [if_pos hsc]
      by_cases hz : (editMask actual v).1 = 0
      · rw [if_pos hz]
        refine ⟨0, by simp, ?_, ?_, ?_⟩
        · intro l _
          rw [List.getD_cons_zero, hz]
          exact Nat.zero_le _
        · intro l hl
          omega
        · rw [List.getD_cons_zero]
      · rw [if_neg hz]
        by_cases hex : ∃ w ∈ rest, (editMask actual w).1 < (editMask actual v).1
        · obtain ⟨k', hk', hlt, hmin, hstrict, hres⟩ :=
            bestLoop_exists_lt actual rest (editMask actual v).1 (editMask actual v).2 hex
          refine ⟨k' + 1, by simpa using hk', ?_, ?_, ?_⟩
          · intro l hl
            cases l with
            | zero =>
              rw [List.getD_cons_succ, List.getD_cons_zero]
              omega
            | succ l =>
              rw [List.getD_cons_succ, List.getD_cons_succ]
              exact hmin l (by simpa using hl)
          · intro l hl
            cases l with
            | zero =>
              rw [List.getD_cons_succ, List.getD_cons_zero]
              omega
            | succ l =>
              rw [List.getD_cons_succ, List.getD_cons_succ]
              exact hstrict l (by omega)
          · rw [List.getD_cons_succ]
            exact hres
        · push_neg at hex
          rw [bestLoop_all_ge actual rest (editMask actual v).1 (editMask actual v).2 hex]
          refine ⟨0, by simp, ?_, ?_, ?_⟩
          · intro l hl
            cases l with
            | zero => rw [List.getD_cons_zero]
            | succ l =>
              have hl' : l < rest.length := by simpa using hl
              rw [List.getD_cons_zero, List.getD_cons_succ,
                List.getD_eq_getElem rest [] hl']
              exact hex rest[l] (List.getElem_mem hl')
          · intro l hl
            omega
          · rw [List.getD_cons_zero]
  refine ⟨⟨fun hnone => ?_, fun he => by rw [he]; rfl⟩, hmain, ?_⟩
  · by_contra hne
    obtain ⟨k, _, _, _, hres⟩ := hmain hne
    rw [hres] at hnone
    exact Option.noConfusion hnone
  · intro vs1 vs2 v0 h0
    unfold bestExpectedMask
    rw [if_neg (by simp), if_neg (by simp)]
    exact bestLoop_break_at_zero actual vs1 v0 vs2 none none h0 (by simp)

/-- Witness for C3: `manger`, present, nous produces the non-empty variant list
`["mangons", "mangeons"]`; the attested `mangeons` selects the first variant
attaining the minimum cost. -/
theorem C3_bestExpectedMask_selection_witness :
    (expectedRegularVariants "manger".toList Tense.present 3 none ≠ []) ∧
    (∃ k, k < (expectedRegularVariants "manger".toList Tense.present 3 none).length ∧
      (∀ l, l < (expectedRegularVariants "manger".toList Tense.present 3 none).length →
        (editMask "mangeons".toList
            ((expectedRegularVariants "manger".toList Tense.present 3 none).getD k [])).1 ≤
          (editMask "mangeons".toList
            ((expectedRegularVariants "manger".toList Tense.present 3 none).getD l [])).1) ∧
      (∀ l, l < k →
        (editMask "mangeons".toList
            ((expectedRegularVariants "manger".toList Tense.present 3 none).getD k [])).1 <
          (editMask "mangeons".toList
            ((expectedRegularVariants "manger".toList Tense.present 3 none).getD l [])).1) ∧
      bestExpectedMask "mangeons".toList
          (expectedRegularVariants "manger".toList Tense.present 3 none) =
        some (editMask "mangeons".toList
          ((expectedRegularVariants "manger".toList Tense.present 3 none).getD k [])).2) :=
  ⟨by decide,
    (C3_bestExpectedMask_selection "mangeons".toList
      (expectedRegularVariants "manger".toList Tense.present 3 none)).2.1 (by decide)⟩

/-! ### Membership facts for the variant generator -/

theorem jsSetDedupGo_mem (l : List (List Char)) :
    ∀ seen v, v ∈ jsSetDedupGo seen l ↔ (v ∈ l ∧ v ∉ seen) := by
  induction l with
  | nil =>
    intro seen v
    simp [jsSetDedupGo]
  | cons x rest ih =>
    intro seen v
    unfold jsSetDedupGo
    by_cases hx : x ∈ seen
    · rw [if_pos hx, ih seen v]
      constructor
      · rintro ⟨hv, hvs⟩
        exact ⟨List.mem_cons_of_mem x hv, hvs⟩
      · rintro ⟨hv, hvs⟩
        rcases List.mem_cons.mp hv with rfl | hv'
        · exact absurd hx hvs
        · exact ⟨hv', hvs⟩
    · rw [if_neg hx]
      constructor
      · intro hv
        rcases List.mem_cons.mp hv with rfl | hv'
        · exact ⟨List.mem_cons_self v rest, hx⟩
        · have := (ih (x :: seen) v).mp hv'
          refine ⟨List.mem_cons_of_mem x this.1, fun hs => this.2 (List.mem_cons_of_mem x hs)⟩
      · rintro ⟨hv, hvs⟩
        rcases List.mem_cons.mp hv with rfl | hv'
        · exact List.mem_cons_self v _
        · by_cases hvx : v = x
          · subst hvx
            exact List.mem_cons_self v _
          · refine List.mem_cons_of_mem x ((ih (x :: seen) v).mpr ⟨hv', ?_⟩)
            intro hs
            rcases List.mem_cons.mp hs with h | h
            · exact hvx h
            · exact hvs h

theorem jsSetDedup_mem (l : List (List Char)) (v : List Char) :
    v ∈ jsSetDedup l ↔ v ∈ l := by
  unfold jsSetDedup
  rw [jsSetDedupGo_mem]
  simp

theorem cerGerVariants_self_mem (form inf ending : List Char) :
    form ∈ cerGerVariants form inf ending := by
  unfold cerGerVariants
  simp only
  rw [jsSetDedup_mem]
  split_ifs <;> simp

theorem cerGerVariants_nil_ending (form inf : List Char) :
    cerGerVariants form inf [] = [form] := by
  unfold cerGerVariants
  simp [headIsAAO, jsSetDedup, jsSetDedupGo]

/-- The imparfait ending table has no empty entry. -/
theorem regularEnding_imparfait_ne_nil (inf : List Char) (p : Fin 6) :
    regularEnding inf Tense.imparfait p ≠ [] := by
  show six "ais" "ais" "ait" "ions" "iez" "aient" p ≠ []
  revert p
  decide

/-- The futur ending table has no empty entry. -/
theorem regularEnding_futur_ne_nil (inf : List Char) (p : Fin 6) :
    regularEnding inf Tense.futur p ≠ [] := by
  show six "ai" "as" "a" "ons" "ez" "ont" p ≠ []
  revert p
  decide

/-! ### Claim C4 (corrected) -/

/-- C4 counterexample: for the `other`-group infinitive `xyz`,
`expectedRegularVariants` returns the singleton `[xyz]` — not the empty set —
for both `present` and `passe_simple` (the empty table ending concatenates to
the bare infinitive, which is truthy, so the early-return is not taken). -/
theorem C4_variants_other_counterexample :
    verbGroup "xyz".toList = VGroup.other ∧
    expectedRegularVariants "xyz".toList Tense.present 0 none = ["xyz".toList] ∧
    expectedRegularVariants "xyz".toList Tense.passe_simple 0 none = ["xyz".toList] := by
  refine ⟨by decide, by decide, by decide⟩

/-- C4 (amended): for every non-empty infinitive of group `other`,
`expectedRegularVariants` returns the singleton `{infinitive}` for `present`
and `passe_simple` (no usable ending, so the prediction degenerates to the
bare infinitive rather than the empty set), while `imparfait` and `futur`
still return non-empty prediction sets. -/
theorem C4_variants_other_amended (inf : List Char) (stems : Option (List Char))
    (p : Fin 6) (hne : inf ≠ []) (hg : verbGroup inf = VGroup.other) :
    expectedRegularVariants inf Tense.present p stems = [inf] ∧
    expectedRegularVariants inf Tense.passe_simple p stems = [inf] ∧
    expectedRegularVariants inf Tense.imparfait p stems ≠ [] ∧
    expectedRegularVariants inf Tense.futur p stems ≠ [] := by
  have hendp : regularEnding inf Tense.present p = [] := by
    unfold regularEnding
    rw [hg]
  have hends : regularEnding inf Tense.passe_simple p = [] := by
    unfold regularEnding
    rw [hg]
  have hbasep : expectedBaseForm inf Tense.present p stems = inf := by
    unfold expectedBaseForm
    simp only [hg, if_pos]
    rw [hendp]
    simp
  have hbases : expectedBaseForm inf Tense.passe_simple p stems = inf := by
    unfold expectedBaseForm
    simp only [hg, if_pos]
    rw [hends]
    simp
  refine ⟨?_, ?_, ?_, ?_⟩
  · unfold expectedRegularVariants
    simp only [hbasep, hendp, hg]
    rw [if_neg hne]
    simp only [List.flatMap_singleton, cerGerVariants_nil_ending]
    rw [if_neg (by simp)]
    simp [jsSetDedup, jsSetDedupGo, hne]
  · unfold expectedRegularVariants
    simp only [hbases, hends, hg]
    rw [if_neg hne]
    simp only [List.flatMap_singleton, cerGerVariants_nil_ending]
    rw [if_neg (by simp)]
    simp [jsSetDedup, jsSetDedupGo, hne]
  · unfold expectedRegularVariants
    simp only [hg]
    have hend : regularEnding inf Tense.imparfait p ≠ [] :=
      regularEnding_imparfait_ne_nil inf p
    have hbase : expectedBaseForm inf Tense.imparfait p stems ≠ [] := by
      unfold expectedBaseForm
      simp only [hg, if_pos]
      intro h
      rcases List.append_eq_nil.mp h with ⟨-, h2⟩
      exact hend h2
    rw [if_neg hbase, if_neg (by simp)]
    intro hempty
    have hmem : expectedBaseForm inf Tense.imparfait p stems ∈
        ([expectedBaseForm inf Tense.imparfait p stems].flatMap fun f =>
          cerGerVariants f inf (regularEnding inf Tense.imparfait p)) := by
      simp only [List.flatMap_singleton]
      exact cerGerVariants_self_mem _ _ _
    have hmem2 := (jsSetDedup_mem _ _).mpr hmem
    have hmem3 : expectedBaseForm inf Tense.imparfait p stems ∈
        (jsSetDedup ([expectedBaseForm inf Tense.imparfait p stems].flatMap fun f =>
          cerGerVariants f inf (regularEnding inf Tense.imparfait p))).filter
          (fun v => ¬ v = []) := by
      rw [List.mem_filter]
      exact ⟨hmem2, by simpa using hbase⟩
    rw [hempty] at hmem3
    exact absurd hmem3 (List.not_mem_nil _)
  · unfold expectedRegularVariants
    simp only [hg]
    have hend : regularEnding inf Tense.futur p ≠ [] :=
      regularEnding_futur_ne_nil inf p
    have hbase : expectedBaseForm inf Tense.futur p stems ≠ [] := by
      unfold expectedBaseForm
      simp only [hg, if_pos]
      intro h
      rcases List.append_eq_nil.mp h with ⟨-, h2⟩
      exact hend h2
    rw [if_neg hbase, if_neg (by simp)]
    intro hempty
    have hmem : expectedBaseForm inf Tense.futur p stems ∈
        ([expectedBaseForm inf Tense.futur p stems].flatMap fun f =>
          cerGerVariants f inf (regularEnding inf Tense.futur p)) := by
      simp only [List.flatMap_singleton]
      exact cerGerVariants_self_mem _ _ _
    have hmem2 := (jsSetDedup_mem _ _).mpr hmem
    have hmem3 : expectedBaseForm inf Tense.futur p stems ∈
        (jsSetDedup ([expectedBaseForm inf Tense.futur p stems].flatMap fun f =>
          cerGerVariants f inf (regularEnding inf Tense.futur p))).filter
          (fun v => ¬ v = []) := by
      rw [List.mem_filter]
      exact ⟨hmem2, by simpa using hbase⟩
    rw [hempty] at hmem3
    exact absurd hmem3 (List.not_mem_nil _)

/-- Witness for the amended C4 at the concrete `other`-group infinitive `xyz`. -/
theorem C4_variants_other_amended_witness :
    ("xyz".toList ≠ ([] : List Char)) ∧
    verbGroup "xyz".toList = VGroup.other ∧
    expectedRegularVariants "xyz".toList Tense.present 2 none = ["xyz".toList] ∧
    expectedRegularVariants "xyz".toList Tense.imparfait 2 none ≠ [] :=
  ⟨by decide, by decide,
    (C4_variants_other_amended "xyz".toList none 2 (by decide) (by decide)).1,
    (C4_variants_other_amended "xyz".toList none 2 (by decide) (by decide)).2.2.1⟩

/-! ### Claim C6 -/

/-- C6: the shared-prefix computation on the six forms `parle`, `parles`,
`parle`, `parlons`, `parlez`, `parlent` yields `"parl"`; and a tense cell with
fewer than six forms (for example only 5) never reaches the stem/union step —
the guard of `buildTenseCell` renders the cell empty, so no shared prefix is
available (the feature is disabled for that tense). -/
theorem C6_shared_parl :
    applyBlackUnionRules
        (["parle", "parles", "parle", "parlons", "parlez", "parlent"].map String.toList) =
      "parl".toList ∧
    buildTenseCellShared
        (["parle", "parles", "parle", "parlons", "parlez", "parlent"].map String.toList) =
      some "parl".toList ∧
    buildTenseCellShared
        (["parle", "parles", "parle", "parlons", "parlez"].map String.toList) = none := by
  refine ⟨by decide, by decide, by decide⟩

/-! ### Claim C7 -/

/-- C7: for the infinitive `appeler`, present tense, person 0 (je), the
generated variant set contains both `appèle` (grave-accent strategy) and
`appelle` (consonant-doubling strategy), and the attested `appelle` aligns
with cost 0 (and an all-false mask) against the doubling variant `appelle`. -/
theorem C7_appeler_variants :
    "appèle".toList ∈ expectedRegularVariants "appeler".toList Tense.present 0 none ∧
    "appelle".toList ∈ expectedRegularVariants "appeler".toList Tense.present 0 none ∧
    (editMask "appelle".toList "appelle".toList).1 = 0 ∧
    (editMask "appelle".toList "appelle".toList).2 =
      List.replicate "appelle".toList.length false := by
  refine ⟨by decide, by decide, editMask_self_fst _, editMask_self_snd _⟩

/-! ### Properties of the shared-prefix computation -/

theorem ciCommonStart_isStart (s : List Char) :
    ∀ f, ∃ t, ciCommonStart s f ++ t = s := by
  induction s with
  | nil => intro f; exact ⟨[], by cases f <;> rfl⟩
  | cons c ss ih =>
    intro f
    cases f with
    | nil => exact ⟨c :: ss, rfl⟩
    | cons d fs =>
      unfold ciCommonStart
      by_cases h : jsToLower c = jsToLower d
      · rw [if_pos h]
        obtain ⟨t, ht⟩ := ih fs
        exact ⟨t, by rw [List.cons_append, ht]⟩
      · rw [if_neg h]
        exact ⟨c :: ss, rfl⟩

theorem ciCommonStart_lower_isStart (s : List Char) :
    ∀ f, ∃ t, (ciCommonStart s f).map jsToLower ++ t = f.map jsToLower := by
  induction s with
  | nil =>
    intro f
    exact ⟨f.map jsToLower, by cases f <;> rfl⟩
  | cons c ss ih =>
    intro f
    cases f with
    | nil => exact ⟨[], rfl⟩
    | cons d fs =>
      unfold ciCommonStart
      by_cases h : jsToLower c = jsToLower d
      · rw [if_pos h]
        obtain ⟨t, ht⟩ := ih fs
        exact ⟨t, by simp only [List.map_cons, List.cons_append, ht, h]⟩
      · rw [if_neg h]
        exact ⟨(d :: fs).map jsToLower, rfl⟩

theorem start_trans {x y z : List Char} (h1 : ∃ t, x ++ t = y) (h2 : ∃ t, y ++ t = z) :
    ∃ t, x ++ t = z := by
  obtain ⟨t1, ht1⟩ := h1
  obtain ⟨t2, ht2⟩ := h2
  exact ⟨t1 ++ t2, by rw [← List.append_assoc, ht1, ht2]⟩

theorem start_map {x y : List Char} (h : ∃ t, x ++ t = y) :
    ∃ t, x.map jsToLower ++ t = y.map jsToLower := by
  obtain ⟨t, ht⟩ := h
  exact ⟨t.map jsToLower, by rw [← List.map_append, ht]⟩

theorem abuGo_inv (rest : List (List Char)) :
    ∀ shared,
      (∃ t, abuGo shared rest ++ t = shared) ∧
      (∀ g ∈ rest, ∃ t, (abuGo shared rest).map jsToLower ++ t = g.map jsToLower) := by
  induction rest with
  | nil =>
    intro shared
    refine ⟨⟨[], List.append_nil _⟩, ?_⟩
    intro g hg
    exact absurd hg (List.not_mem_nil g)
  | cons form more ih =>
    intro shared
    unfold abuGo
    simp only
    by_cases htmp : ciCommonStart shared form = []
    · rw [if_pos htmp]
      refine ⟨⟨shared, rfl⟩, ?_⟩
      intro g _
      exact ⟨g.map jsToLower, rfl⟩
    · rw [if_neg htmp]
      obtain ⟨hpre, hall⟩ := ih (ciCommonStart shared form)
      refine ⟨start_trans hpre (ciCommonStart_isStart shared form), ?_⟩
      intro g hg
      rcases List.mem_cons.mp hg with rfl | hg'
      · exact start_trans (start_map hpre) (ciCommonStart_lower_isStart shared g)
      · exact hall g hg'

/-! ### Claim C9 -/

/-- C9: for every non-empty list of forms, `applyBlackUnionRules` returns a
string that is literally a prefix of the first form (its characters are taken
verbatim from the first form) and is, case-insensitively, a prefix of every
form in the list; for the empty list it returns the empty string. -/
theorem C9_applyBlackUnionRules_inv (forms : List (List Char)) :
    (forms = [] → applyBlackUnionRules forms = []) ∧
    (∀ f rest, forms = f :: rest →
      (∃ t, applyBlackUnionRules forms ++ t = f) ∧
      (∀ g ∈ forms, ∃ t,
        (applyBlackUnionRules forms).map jsToLower ++ t = g.map jsToLower)) := by
  constructor
  · intro h
    rw [h]
    rfl
  · intro f rest h
    subst h
    show (∃ t, abuGo f rest ++ t = f) ∧ _
    obtain ⟨hpre, hall⟩ := abuGo_inv rest f
    refine ⟨hpre, ?_⟩
    intro g hg
    rcases List.mem_cons.mp hg with rfl | hg'
    · exact start_map hpre
    · exact hall g hg'

/-- Witness for C9 at the six `parler` present forms. -/
theorem C9_applyBlackUnionRules_inv_witness :
    (∃ t, applyBlackUnionRules
        (["parle", "parles", "parle", "parlons", "parlez", "parlent"].map String.toList) ++ t =
      "parle".toList) ∧
    (∀ g ∈ (["parle", "parles", "parle", "parlons", "parlez", "parlent"].map String.toList),
      ∃ t, (applyBlackUnionRules
          (["parle", "parles", "parle", "parlons", "parlez", "parlent"].map String.toList)).map
            jsToLower ++ t = g.map jsToLower) :=
  (C9_applyBlackUnionRules_inv
      (["parle", "parles", "parle", "parlons", "parlez", "parlent"].map String.toList)).2
    "parle".toList
    (["parles", "parle", "parlons", "parlez", "parlent"].map String.toList) rfl

/-! ### Properties of the greedy stem-letter scan -/

theorem mslLoop_break (lower : List Char) (ch : Char) (rest : List Char) (start : Nat)
    (isB : List Bool) (h : jsIndexOfFromAux lower ch start = none) :
    mslLoop lower (ch :: rest) start isB = isB := by
  unfold mslLoop
  rw [h]

theorem jsIndexOfFromAux_ge (l : List Char) :
    ∀ c start idx, jsIndexOfFromAux l c start = some idx → start ≤ idx := by
  induction l with
  | nil =>
    intro c start idx h
    cases start <;> exact Option.noConfusion h
  | cons d rest ih =>
    intro c start idx h
    cases start with
    | zero => omega
    | succ s =>
      unfold jsIndexOfFromAux at h
      cases hx : jsIndexOfFromAux rest c s with
      | none =>
        rw [hx] at h
        exact Option.noConfusion h
      | some i =>
        rw [hx] at h
        simp at h
        have := ih c s i hx
        omega

theorem mslIndices_ge (lower : List Char) :
    ∀ stem start, ∀ q ∈ mslIndices lower stem start, start ≤ q := by
  intro stem
  induction stem with
  | nil =>
    intro start q hq
    exact absurd hq (List.not_mem_nil q)
  | cons ch rest ih =>
    intro start q hq
    unfold mslIndices at hq
    cases hx : jsIndexOfFromAux lower ch start with
    | none =>
      rw [hx] at hq
      exact absurd hq (List.not_mem_nil q)
    | some idx =>
      rw [hx] at hq
      rcases List.mem_cons.mp hq with rfl | hq'
      · exact jsIndexOfFromAux_ge lower ch start q hx
      · have h1 := ih (idx + 1) q hq'
        have h2 := jsIndexOfFromAux_ge lower ch start idx hx
        omega

theorem mslIndices_sorted (lower : List Char) :
    ∀ stem start, List.Pairwise (· < ·) (mslIndices lower stem start) := by
  intro stem
  induction stem with
  | nil => intro start; exact List.Pairwise.nil
  | cons ch rest ih =>
    intro start
    unfold mslIndices
    cases hx : jsIndexOfFromAux lower ch start with
    | none => exact List.Pairwise.nil
    | some idx =>
      refine List.pairwise_cons.mpr ⟨?_, ih (idx + 1)⟩
      intro q hq
      have := mslIndices_ge lower rest (idx + 1) q hq
      omega

theorem mslLoop_eq_foldl (lower : List Char) :
    ∀ stem start isB,
      mslLoop lower stem start isB =
        (mslIndices lower stem start).foldl (fun m q => m.set q true) isB := by
  intro stem
  induction stem with
  | nil => intro start isB; rfl
  | cons ch rest ih =>
    intro start isB
    unfold mslLoop mslIndices
    cases hx : jsIndexOfFromAux lower ch start with
    | none => rfl
    | some idx => exact ih (idx + 1) (isB.set idx true)

/-! ### Claim C10 -/

/-- C10: if during the greedy left-to-right scan of `markStemLetters` a stem
character has no match after the previously consumed index, the scan aborts
entirely — the result is the incoming mask unchanged, whatever the remaining
stem characters are (even if they do occur later in the form); and the marked
indices, in scan order, are strictly increasing (the full mask is exactly the
fold of `set · true` over that index list). -/
theorem C10_markStemLetters_greedy (form stem : List Char) :
    (∀ (lower : List Char) (ch : Char) (rest : List Char) (start : Nat) (isB : List Bool),
      jsIndexOfFromAux lower ch start = none →
      mslLoop lower (ch :: rest) start isB = isB) ∧
    (markStemLetters form stem =
      (mslIndices (form.map jsToLower) (stem.map jsToLower) 0).foldl
        (fun m q => m.set q true) (List.replicate form.length false)) ∧
    List.Pairwise (· < ·) (mslIndices (form.map jsToLower) (stem.map jsToLower) 0) := by
  refine ⟨mslLoop_break, ?_, mslIndices_sorted (form.map jsToLower) (stem.map jsToLower) 0⟩
  exact mslLoop_eq_foldl (form.map jsToLower) (stem.map jsToLower) 0
    (List.replicate form.length false)

/-- Witness for C10: in `markStemLetters "abc" "xc"` the stem character `x`
has no match, so the scan aborts and nothing is marked, although the later
stem character `c` does occur in the form. -/
theorem C10_markStemLetters_greedy_witness :
    markStemLetters "abc".toList "xc".toList = List.replicate 3 false ∧
    'c' ∈ "abc".toList ∧ 'c' ∈ "xc".toList :=
  ⟨(C10_markStemLetters_greedy "abc".toList "xc".toList).1
      "abc".toList 'x' ['c'] 0 (List.replicate 3 false) (by decide),
    by decide, by decide⟩


/-! ### The merge step marks exactly the case-insensitive common start -/

theorem mslLoop_length (lower : List Char) :
    ∀ stem start isB, (mslLoop lower stem start isB).length = isB.length := by
  intro stem
  induction stem with
  | nil => intro start isB; rfl
  | cons ch rest ih =>
    intro start isB
    unfold mslLoop
    cases hx : jsIndexOfFromAux lower ch start with
    | none => rfl
    | some idx => rw [ih, List.length_set]

theorem markStemLetters_length (form stem : List Char) :
    (markStemLetters form stem).length = form.length := by
  unfold markStemLetters
  rw [mslLoop_length, List.length_replicate]

theorem mspGo_getD (form : List Char) :
    ∀ sp (isB : List Bool) start p, isB.length = form.length →
      (mspGo form isB start sp).getD p false =
        (isB.getD p false ||
          decide (start ≤ p ∧ p < start + (ciCommonStart (form.drop start) sp).length)) := by
  intro sp
  induction sp with
  | nil =>
    intro isB start p _
    show isB.getD p false = _
    have hci : ciCommonStart (form.drop start) [] = [] := by
      cases form.drop start <;> rfl
    rw [hci]
    simp only [List.length_nil, Nat.add_zero]
    have hnp : ¬ (start ≤ p ∧ p < start) := by omega
    rw [decide_eq_false hnp, Bool.or_false]
  | cons c rest ih =>
    intro isB start p hlen
    unfold mspGo
    cases hx : form[start]? with
    | none =>
      have hge : form.length ≤ start := by
        by_contra hlt
        rw [List.getElem?_eq_getElem (by omega)] at hx
        exact Option.noConfusion hx
      have hdrop : form.drop start = [] := List.drop_eq_nil_of_le hge
      show isB.getD p false = _
      rw [hdrop]
      show isB.getD p false = (isB.getD p false ||
        decide (start ≤ p ∧ p < start + ([] : List Char).length))
      simp only [List.length_nil, Nat.add_zero]
      have hnp : ¬ (start ≤ p ∧ p < start) := by omega
      rw [decide_eq_false hnp, Bool.or_false]
    | some fc =>
      have hlt : start < form.length := by
        by_contra hge
        rw [List.getElem?_eq_none (by omega)] at hx
        exact Option.noConfusion hx
      have hdrop : form.drop start = fc :: form.drop (start + 1) := by
        rw [List.drop_eq_getElem_cons hlt]
        rw [List.getElem?_eq_getElem hlt] at hx
        rw [Option.some.inj hx]
      simp only []
      by_cases h : jsToLower fc = jsToLower c
      · rw [if_pos h,
          ih (isB.set start true) (start + 1) p (by rw [List.length_set]; exact hlen)]
        have hci : ciCommonStart (form.drop start) (c :: rest) =
            fc :: ciCommonStart (form.drop (start + 1)) rest := by
          rw [hdrop]
          simp only [ciCommonStart]
          rw [if_pos h]
        rw [hci]
        by_cases hp : p = start
        · subst hp
          have hp1 : (isB.set p true).getD p false = true := by
            rw [List.getD_eq_getElem?_getD, List.getElem?_set_eq_of_lt true (by omega)]
            rfl
          rw [hp1]
          simp only [Bool.true_or]
          have hcond : p ≤ p ∧
              p < p + (fc :: ciCommonStart (form.drop (p + 1)) rest).length := by
            simp only [List.length_cons]
            omega
          rw [decide_eq_true hcond, Bool.or_true]
        · have hp1 : (isB.set start true).getD p false = isB.getD p false := by
            rw [List.getD_eq_getElem?_getD,
              List.getElem?_set_ne (fun hh => hp hh.symm),
              ← List.getD_eq_getElem?_getD]
          rw [hp1]
          congr 1
          rw [decide_eq_decide]
          simp only [List.length_cons]
          omega
      · rw [if_neg h]
        have hci : ciCommonStart (form.drop start) (c :: rest) = [] := by
          rw [hdrop]
          simp only [ciCommonStart]
          rw [if_neg h]
        rw [hci]
        simp only [List.length_nil, Nat.add_zero]
        have hnp : ¬ (start ≤ p ∧ p < start) := by omega
        rw [decide_eq_false hnp, Bool.or_false]

theorem mergeShared_getD (isB : List Bool) (form shared : List Char) (p : Nat)
    (hlen : isB.length = form.length) :
    (mergeShared isB form shared).getD p false =
      (isB.getD p false || decide (p < (ciCommonStart form shared).length)) := by
  unfold mergeShared
  rw [mspGo_getD form shared isB 0 p hlen]
  congr 1
  rw [decide_eq_decide]
  rw [List.drop_zero]
  omega

/-! ### Claim C5 -/

/-- C5: the classification of `colorizeForm` is exhaustive and mutually
exclusive — every character index of the form gets exactly one of
stem/irregular/normal; an index is `stem` iff it is covered by the greedy
linguistic-stem scan or by the contiguous case-insensitive shared-prefix
match, regardless of the deviation mask; a remaining index is `irregular`
iff the deviation mask flags it, and `normal` otherwise. -/
theorem C5_classifyForm_partition (form shared stem : List Char)
    (mask : Option (List Bool)) (i : Nat) (hi : i < form.length) :
    (classifyForm form shared stem mask).length = form.length ∧
    ((classifyForm form shared stem mask).getD i CharClass.normal = CharClass.stem ∨
      (classifyForm form shared stem mask).getD i CharClass.normal = CharClass.irregular ∨
      (classifyForm form shared stem mask).getD i CharClass.normal = CharClass.normal) ∧
    ((classifyForm form shared stem mask).getD i CharClass.normal = CharClass.stem ↔
      ((markStemLetters form stem).getD i false = true ∨
        i < (ciCommonStart form shared).length)) ∧
    ((classifyForm form shared stem mask).getD i CharClass.normal = CharClass.irregular ↔
      (¬ ((markStemLetters form stem).getD i false = true ∨
          i < (ciCommonStart form shared).length) ∧ maskAt mask i = true)) ∧
    ((classifyForm form shared stem mask).getD i CharClass.normal = CharClass.normal ↔
      (¬ ((markStemLetters form stem).getD i false = true ∨
          i < (ciCommonStart form shared).length) ∧ maskAt mask i = false)) := by
  have hlen : (classifyForm form shared stem mask).length = form.length := by
    unfold classifyForm
    simp
  have hget : (classifyForm form shared stem mask).getD i CharClass.normal =
      (if (mergeShared (markStemLetters form stem) form shared).getD i false then
        CharClass.stem
       else if maskAt mask i then CharClass.irregular else CharClass.normal) := by
    unfold classifyForm
    simp only
    rw [List.getD_eq_getElem?_getD, List.getElem?_map]
    simp [List.getElem?_range, hi]
  have hblack : (mergeShared (markStemLetters form stem) form shared).getD i false =
      ((markStemLetters form stem).getD i false ||
        decide (i < (ciCommonStart form shared).length)) :=
    mergeShared_getD (markStemLetters form stem) form shared i
      (markStemLetters_length form stem)
  by_cases h1 : ((markStemLetters form stem).getD i false = true ∨
      i < (ciCommonStart form shared).length)
  · have hb : ((markStemLetters form stem).getD i false ||
        decide (i < (ciCommonStart form shared).length)) = true := by
      rcases h1 with h | h
      · rw [h, Bool.true_or]
      · rw [decide_eq_true h, Bool.or_true]
    have hval : (classifyForm form shared stem mask).getD i CharClass.normal =
        CharClass.stem := by
      rw [hget, hblack, hb]
      simp
    refine ⟨hlen, Or.inl hval, ?_, ?_, ?_⟩
    · rw [hval]
      exact ⟨fun _ => h1, fun _ => rfl⟩
    · rw [hval]
      constructor
      · intro hcon
        exact CharClass.noConfusion hcon
      · rintro ⟨hno, -⟩
        exact absurd h1 hno
    · rw [hval]
      constructor
      · intro hcon
        exact CharClass.noConfusion hcon
      · rintro ⟨hno, -⟩
        exact absurd h1 hno
  · have hb : ((markStemLetters form stem).getD i false ||
        decide (i < (ciCommonStart form shared).length)) = false := by
      push_neg at h1
      rcases h1 with ⟨ha, hbb⟩
      have ha' : (markStemLetters form stem).getD i false = false :=
        Bool.eq_false_iff.mpr ha
      rw [ha', decide_eq_false (by omega), Bool.or_false]
    by_cases h2 : maskAt mask i = true
    · have hval : (classifyForm form shared stem mask).getD i CharClass.normal =
          CharClass.irregular := by
        rw [hget, hblack, hb, h2]
        simp
      refine ⟨hlen, Or.inr (Or.inl hval), ?_, ?_, ?_⟩
      · rw [hval]
        constructor
        · intro hcon
          exact CharClass.noConfusion hcon
        · intro hcov
          exact absurd hcov h1
      · rw [hval]
        exact ⟨fun _ => ⟨h1, h2⟩, fun _ => rfl⟩
      · rw [hval]
        constructor
        · intro hcon
          exact CharClass.noConfusion hcon
        · rintro ⟨-, hm⟩
          rw [h2] at hm
          exact Bool.noConfusion hm
    · have h2f : maskAt mask i = false := by
        rw [Bool.not_eq_true] at h2
        exact h2
      have hval : (classifyForm form shared stem mask).getD i CharClass.normal =
          CharClass.normal := by
        rw [hget, hblack, hb, h2f]
        simp
      refine ⟨hlen, Or.inr (Or.inr hval), ?_, ?_, ?_⟩
      · rw [hval]
        constructor
        · intro hcon
          exact CharClass.noConfusion hcon
        · intro hcov
          exact absurd hcov h1
      · rw [hval]
        constructor
        · intro hcon
          exact CharClass.noConfusion hcon
        · rintro ⟨-, hm⟩
          rw [h2f] at hm
          exact Bool.noConfusion hm
      · rw [hval]
        exact ⟨fun _ => ⟨h1, h2f⟩, fun _ => rfl⟩

/-- Witness for C5 at `form = "finais"`, `stem = "fin"`, empty shared string,
no deviation mask, index 0 (a stem-marked position). -/
theorem C5_classifyForm_partition_witness :
    (0 < "finais".toList.length) ∧
    ((classifyForm "finais".toList [] "fin".toList none).getD 0 CharClass.normal =
        CharClass.stem ↔
      (((markStemLetters "finais".toList "fin".toList).getD 0 false = true) ∨
        0 < (ciCommonStart "finais".toList []).length)) :=
  ⟨by decide,
    (C5_classifyForm_partition "finais".toList [] "fin".toList none 0 (by decide)).2.2.1⟩

/-! ### Every generated variant ends with the table ending -/

theorem regularEnding_no_cg (inf : List Char) (tk : Tense) (p : Fin 6) :
    ∀ ch ∈ regularEnding inf tk p, ¬ (ch = 'c' ∨ ch = 'g') := by
  unfold regularEnding
  cases tk <;> cases verbGroup inf <;> revert p <;> decide

theorem replaceCCedilla_of_no_c (l : List Char) (h : ∀ ch ∈ l, ch ≠ 'c') :
    replaceCCedilla l = l := by
  induction l with
  | nil => rfl
  | cons x rest ih =>
    unfold replaceCCedilla
    have hx : ¬ (x = 'c' && headIsAAO rest) = true := by
      simp only [Bool.and_eq_true, decide_eq_true_eq]
      rintro ⟨hc, -⟩
      exact h x (List.mem_cons_self x rest) (by simpa using hc)
    rw [if_neg hx, ih fun ch hch => h ch (List.mem_cons_of_mem x hch)]

theorem replaceGGe_of_no_g (l : List Char) (h : ∀ ch ∈ l, ch ≠ 'g') :
    replaceGGe l = l := by
  induction l with
  | nil => rfl
  | cons x rest ih =>
    unfold replaceGGe
    have hx : ¬ (x = 'g' && headIsAAO rest) = true := by
      simp only [Bool.and_eq_true, decide_eq_true_eq]
      rintro ⟨hc, -⟩
      exact h x (List.mem_cons_self x rest) (by simpa using hc)
    rw [if_neg hx, ih fun ch hch => h ch (List.mem_cons_of_mem x hch)]

theorem replaceCCedilla_append (e : List Char) (he : ∀ ch ∈ e, ch ≠ 'c') :
    ∀ w, ∃ w', replaceCCedilla (w ++ e) = w' ++ e := by
  intro w
  induction w with
  | nil =>
    refine ⟨[], ?_⟩
    simp only [List.nil_append]
    exact replaceCCedilla_of_no_c e he
  | cons x w ih =>
    obtain ⟨w', hw'⟩ := ih
    rw [List.cons_append]
    unfold replaceCCedilla
    by_cases hx : (x = 'c' && headIsAAO (w ++ e)) = true
    · rw [if_pos hx, hw']
      exact ⟨'ç' :: w', rfl⟩
    · rw [if_neg hx, hw']
      exact ⟨x :: w', rfl⟩

theorem replaceGGe_append (e : List Char) (he : ∀ ch ∈ e, ch ≠ 'g') :
    ∀ w, ∃ w', replaceGGe (w ++ e) = w' ++ e := by
  intro w
  induction w with
  | nil =>
    refine ⟨[], ?_⟩
    simp only [List.nil_append]
    exact replaceGGe_of_no_g e he
  | cons x w ih =>
    obtain ⟨w', hw'⟩ := ih
    rw [List.cons_append]
    unfold replaceGGe
    by_cases hx : (x = 'g' && headIsAAO (w ++ e)) = true
    · rw [if_pos hx, hw']
      exact ⟨'g' :: 'e' :: w', rfl⟩
    · rw [if_neg hx, hw']
      exact ⟨x :: w', rfl⟩

theorem cerGerVariants_mem_cases (form inf ending : List Char) (v : List Char)
    (hv : v ∈ cerGerVariants form inf ending) :
    v = form ∨ v = replaceCCedilla form ∨ v = replaceGGe form := by
  unfold cerGerVariants at hv
  simp only at hv
  rw [jsSetDedup_mem] at hv
  split_ifs at hv <;> simp at hv <;> tauto

theorem expectedBaseForm_suffix (inf : List Char) (tk : Tense) (p : Fin 6)
    (stems : Option (List Char)) :
    ∃ w, expectedBaseForm inf tk p stems = w ++ regularEnding inf tk p := by
  unfold expectedBaseForm
  cases tk <;> simp only <;> exact ⟨_, rfl⟩

theorem expectedRegularVariants_suffix (inf : List Char) (tk : Tense) (p : Fin 6)
    (stems : Option (List Char)) :
    ∀ v ∈ expectedRegularVariants inf tk p stems,
      ∃ w, v = w ++ regularEnding inf tk p := by
  intro v hv
  unfold expectedRegularVariants at hv
  simp only at hv
  by_cases hbase : expectedBaseForm inf tk p stems = []
  · rw [if_pos hbase] at hv
    exact absurd hv (List.not_mem_nil v)
  · rw [if_neg hbase] at hv
    rw [List.mem_filter] at hv
    have hv1 := (jsSetDedup_mem _ v).mp hv.1
    have hcg := regularEnding_no_cg inf tk p
    have hnoc : ∀ ch ∈ regularEnding inf tk p, ch ≠ 'c' :=
      fun ch h hh => hcg ch h (Or.inl hh)
    have hnog : ∀ ch ∈ regularEnding inf tk p, ch ≠ 'g' :=
      fun ch h hh => hcg ch h (Or.inr hh)
    obtain ⟨wb, hwb⟩ := expectedBaseForm_suffix inf tk p stems
    have hcer : ∀ u, u ∈ cerGerVariants (expectedBaseForm inf tk p stems) inf
        (regularEnding inf tk p) → ∃ w, u = w ++ regularEnding inf tk p := by
      intro u hu
      rcases cerGerVariants_mem_cases _ _ _ u hu with h | h | h
      · exact ⟨wb, by rw [h, hwb]⟩
      · obtain ⟨w', hw'⟩ := replaceCCedilla_append _ hnoc wb
        refine ⟨w', ?_⟩
        rw [h, hwb, hw']
      · obtain ⟨w', hw'⟩ := replaceGGe_append _ hnog wb
        refine ⟨w', ?_⟩
        rw [h, hwb, hw']
    by_cases hcond : tk = Tense.present ∧ verbGroup inf ≠ VGroup.other
    · rw [if_pos hcond] at hv1
      rcases List.mem_append.mp hv1 with h | h
      · exact hcer v (by simpa using h)
      · obtain ⟨htk, -⟩ := hcond
        subst htk
        simp only [List.mem_flatMap, List.mem_map] at h
        obtain ⟨st1, -, st2, -, st3, -, hst⟩ := h
        exact ⟨st3, hst.symm⟩
    · rw [if_neg hcond] at hv1
      exact hcer v (by simpa using hv1)

theorem bestLoop_mem (actual : List Char) :
    ∀ (vs : List (List Char)) (bs : Option Nat) (m : Option (List Bool)),
      bestLoop actual vs bs m = m ∨
        ∃ v ∈ vs, bestLoop actual vs bs m = some (editMask actual v).2 := by
  intro vs
  induction vs with
  | nil => intro bs m; left; rfl
  | cons v rest ih =>
    intro bs m
    unfold bestLoop
    simp only
    by_cases hsc : ltScore (editMask actual v).1 bs = true
    · rw [if_pos hsc]
      by_cases hz : (editMask actual v).1 = 0
      · rw [if_pos hz]
        right
        exact ⟨v, List.mem_cons_self v rest, rfl⟩
      · rw [if_neg hz]
        rcases ih (some (editMask actual v).1) (some (editMask actual v).2) with h | h
        · right
          exact ⟨v, List.mem_cons_self v rest, h⟩
        · obtain ⟨w, hw, hres⟩ := h
          right
          exact ⟨w, List.mem_cons_of_mem v hw, hres⟩
    · rw [if_neg hsc]
      rcases ih bs m with h | h
      · left
        exact h
      · obtain ⟨w, hw, hres⟩ := h
        right
        exact ⟨w, List.mem_cons_of_mem v hw, hres⟩

theorem bestExpectedMask_none_or_mem (actual : List Char) (vs : List (List Char)) :
    bestExpectedMask actual vs = none ∨
      ∃ v ∈ vs, bestExpectedMask actual vs = some (editMask actual v).2 := by
  unfold bestExpectedMask
  by_cases h : vs = []
  · rw [if_pos h]
    left
    rfl
  · rw [if_neg h]
    rcases bestLoop_mem actual vs none none with h1 | h1
    · left
      exact h1
    · right
      exact h1

theorem editMask_mask_suffix_false (s e w : List Char) (q : Nat) (hq : s.length ≤ q) :
    ((editMask (s ++ e) (w ++ e)).2).getD q false = false := by
  unfold editMask
  simp only
  rw [List.length_append, List.length_append,
    btLoop_common_suffix w e s e.length le_rfl,
    List.getD_eq_getElem?_getD,
    btLoop_getElem_ge (w ++ e) (s ++ e) w.length s.length _ q hq,
    List.getElem?_replicate]
  split_ifs <;> rfl

/-! ### The greedy scan marks the whole stem when the form starts with it -/

theorem jsIndexOfFromAux_self (L : List Char) :
    ∀ k c, L[k]? = some c → jsIndexOfFromAux L c k = some k := by
  induction L with
  | nil =>
    intro k c h
    rw [List.getElem?_eq_none (by simp)] at h
    exact Option.noConfusion h
  | cons d rest ih =>
    intro k c h
    cases k with
    | zero =>
      simp only [List.getElem?_cons_zero, Option.some.injEq] at h
      unfold jsIndexOfFromAux
      rw [if_pos h]
    | succ k =>
      simp only [List.getElem?_cons_succ] at h
      unfold jsIndexOfFromAux
      rw [ih k c h]
      rfl

theorem set_getD_true_mono (isB : List Bool) (idx q : Nat)
    (h : isB.getD q false = true) : (isB.set idx true).getD q false = true := by
  have hqlen : q < isB.length := by
    by_contra hge
    rw [List.getD_eq_getElem?_getD, List.getElem?_eq_none (by omega)] at h
    exact Bool.noConfusion h
  by_cases hiq : idx = q
  · subst hiq
    rw [List.getD_eq_getElem?_getD, List.getElem?_set_eq_of_lt true hqlen]
    rfl
  · rw [List.getD_eq_getElem?_getD, List.getElem?_set_ne hiq, ← List.getD_eq_getElem?_getD]
    exact h

theorem mslLoop_getD_true_mono (L : List Char) :
    ∀ (S : List Char) (k : Nat) (isB : List Bool) (q : Nat),
      isB.getD q false = true → (mslLoop L S k isB).getD q false = true := by
  intro S
  induction S with
  | nil => intro k isB q h; exact h
  | cons ch rest ih =>
    intro k isB q h
    unfold mslLoop
    cases hx : jsIndexOfFromAux L ch k with
    | none => exact h
    | some idx => exact ih (idx + 1) (isB.set idx true) q (set_getD_true_mono isB idx q h)

theorem mslLoop_marks (L S : List Char) (hLS : ∀ i, i < S.length → L[i]? = S[i]?) :
    ∀ (n k : Nat) (isB : List Bool) (q : Nat), S.length - k = n →
      S.length ≤ isB.length → k ≤ q → q < S.length →
      (mslLoop L (S.drop k) k isB).getD q false = true := by
  intro n
  induction n with
  | zero =>
    intro k isB q hn hlen hkq hq
    omega
  | succ n ihn =>
    intro k isB q hn hlen hkq hq
    have hk : k < S.length := by omega
    have hdrop : S.drop k = S[k] :: S.drop (k + 1) := List.drop_eq_getElem_cons hk
    rw [hdrop]
    unfold mslLoop
    have hfind : jsIndexOfFromAux L S[k] k = some k := by
      apply jsIndexOfFromAux_self
      rw [hLS k hk, List.getElem?_eq_getElem hk]
    rw [hfind]
    by_cases hqk : q = k
    · subst hqk
      apply mslLoop_getD_true_mono
      rw [List.getD_eq_getElem?_getD, List.getElem?_set_eq_of_lt true (by omega)]
      rfl
    · exact ihn (k + 1) (isB.set k true) q (by omega)
        (by rw [List.length_set]; exact hlen) (by omega) hq

theorem markStemLetters_self_start (stem e : List Char) (q : Nat) (hq : q < stem.length) :
    (markStemLetters (stem ++ e) stem).getD q false = true := by
  unfold markStemLetters
  have hLS : ∀ i, i < (stem.map jsToLower).length →
      ((stem ++ e).map jsToLower)[i]? = (stem.map jsToLower)[i]? := by
    intro i hi
    rw [List.getElem?_map, List.getElem?_map]
    congr 1
    exact List.getElem?_append_left (by simpa using hi)
  have h := mslLoop_marks ((stem ++ e).map jsToLower) (stem.map jsToLower) hLS
    ((stem.map jsToLower).length - 0) 0
    (List.replicate (stem ++ e).length false) q rfl
    (by simp) (by omega) (by simpa using hq)
  rw [List.drop_zero] at h
  exact h

theorem linguisticStem_eq_sliceNeg (inf : List Char) (hg : verbGroup inf ≠ VGroup.other) :
    linguisticStem inf = sliceNeg inf 2 := by
  unfold linguisticStem
  unfold verbGroup at hg
  split_ifs at hg ⊢ <;> first | rfl | exact absurd rfl hg

theorem classifyForm_length (form shared stem : List Char) (mask : Option (List Bool)) :
    (classifyForm form shared stem mask).length = form.length := by
  unfold classifyForm
  simp

theorem classifyForm_getD_lt (form shared stem : List Char) (mask : Option (List Bool))
    (i : Nat) (hi : i < form.length) :
    (classifyForm form shared stem mask).getD i CharClass.normal =
      (if (mergeShared (markStemLetters form stem) form shared).getD i false then
        CharClass.stem
       else if maskAt mask i then CharClass.irregular else CharClass.normal) := by
  unfold classifyForm
  simp only
  rw [List.getD_eq_getElem?_getD, List.getElem?_map]
  simp [List.getElem?_range, hi]

/-! ### Claim C8 -/

/-- C8: for every infinitive of a recognized group (er/ir/re) and every
tense/person, an attested form equal to the infinitive's linguistic stem
concatenated with the table ending is never classified `irregular` at any
character: every variant the generator produces ends with the same table
ending, so the backtraced mask can only flag positions inside the stem
region, and those are all covered by the greedy stem marking. -/
theorem C8_regular_form_never_irregular (inf : List Char) (stems : Option (List Char))
    (shared : List Char) (tk : Tense) (p : Fin 6) (i : Nat)
    (hg : verbGroup inf ≠ VGroup.other) :
    (classifyForm (linguisticStem inf ++ regularEnding inf tk p) shared
        (linguisticStem inf)
        (bestExpectedMask (linguisticStem inf ++ regularEnding inf tk p)
          (expectedRegularVariants inf tk p stems))).getD i CharClass.normal ≠
      CharClass.irregular := by
  set form := linguisticStem inf ++ regularEnding inf tk p with hform
  set mask := bestExpectedMask form (expectedRegularVariants inf tk p stems) with hmask
  by_cases hi : i < form.length
  · rw [classifyForm_getD_lt form shared (linguisticStem inf) mask i hi]
    by_cases hb :
        (mergeShared (markStemLetters form (linguisticStem inf)) form shared).getD i false =
          true
    · rw [if_pos hb]
      intro hcon
      exact CharClass.noConfusion hcon
    · have hge : (linguisticStem inf).length ≤ i := by
        by_contra hlt
        apply hb
        rw [mergeShared_getD _ _ _ _ (markStemLetters_length form (linguisticStem inf))]
        rw [hform]
        rw [markStemLetters_self_start (linguisticStem inf) (regularEnding inf tk p) i
          (by omega)]
        rw [Bool.true_or]
      have hmfalse : maskAt mask i = false := by
        rcases bestExpectedMask_none_or_mem form (expectedRegularVariants inf tk p stems)
          with hm | hm
        · rw [hmask, hm]
          rfl
        · obtain ⟨v, hvmem, hveq⟩ := hm
          obtain ⟨w, hw⟩ := expectedRegularVariants_suffix inf tk p stems v hvmem
          rw [hmask, hveq]
          show (editMask form v).2.getD i false = false
          rw [hw, hform]
          exact editMask_mask_suffix_false (linguisticStem inf) (regularEnding inf tk p) w
            i hge
      have hm' : ¬ (maskAt mask i = true) := by
        rw [hmfalse]
        exact Bool.false_ne_true
      rw [if_neg hb, if_neg hm']
      intro hcon
      exact CharClass.noConfusion hcon
  · have hlen := classifyForm_length form shared (linguisticStem inf) mask
    rw [List.getD_eq_getElem?_getD, List.getElem?_eq_none (by omega)]
    intro hcon
    exact CharClass.noConfusion hcon

/-- Witness for C8: `parler`, imparfait, je — the form `parl + ais` has no
irregular character at position 4 (nor anywhere else). -/
theorem C8_regular_form_never_irregular_witness :
    verbGroup "parler".toList ≠ VGroup.other ∧
    (classifyForm
        (linguisticStem "parler".toList ++ regularEnding "parler".toList Tense.imparfait 0)
        [] (linguisticStem "parler".toList)
        (bestExpectedMask
          (linguisticStem "parler".toList ++
            regularEnding "parler".toList Tense.imparfait 0)
          (expectedRegularVariants "parler".toList Tense.imparfait 0 none))).getD 4
        CharClass.normal ≠ CharClass.irregular :=
  ⟨by decide,
    C8_regular_form_never_irregular "parler".toList none [] Tense.imparfait 0 4 (by decide)⟩
